import Mathlib

/-!
# fixcsv: the record encoder

A shallow embedding of `tags.go` and `encode.go` of the `fixcsv` package.

* A Go byte string (`string` or `[]byte`) is a `List Char`, one `Char` per byte:
  `len` is `List.length`, `s[:n]` is `List.take n`.
* A Go `int` is an `Int`; the build is the 64-bit one (`intSize`), which only matters for the
  range check of `strconv.Atoi`.
* A `reflect.Value` together with its `reflect.Type` is a `Value`: the constructor is the branch
  `newValueEncoder` takes for the type, the arguments are what the chosen encoder reads.
* `(x, error)` results are `Except Error x`; the recovered panic of `encodeSpecs` is an `Error`.
* `sort.Sort` is known by its contract only (the result is a permutation of the input in which
  no later element is `Less` than an earlier one; stability is not promised), so every function
  that reaches it takes the sort as a parameter `S : Sorter`.
-/

namespace Fixcsv

/-- A Go byte string, one `Char` per byte. -/
abbrev Bytes := List Char

/-- The package variable `delimeter = "||"`. -/
def delimeter : Bytes := ['|', '|']

/-- The error values the package can return. -/
inductive Error where
  /-- Models `fmt.Errorf("miss format")` of `parseTag`. -/
  | missFormat
  /-- Models `fmt.Errorf("position must be numberic")` of `parseTag`. -/
  | positionNotNumeric
  /-- Models `fmt.Errorf("length must be numberic")` of `parseTag`. -/
  | lengthNotNumeric
  /-- The value `&MarshalInvalidTypeError` with its `typeName`. -/
  | MarshalInvalidTypeError (typeName : String)
  /-- Models `fmt.Errorf("error encode %#v", r)`: the slice-bounds panic recovered in `encodeSpecs`,
  raised by `value[:bound]`. -/
  | encodePanic (bound : Int)
  /-- An error returned by a `MarshalText` method. -/
  | marshalText (msg : String)
  deriving DecidableEq, Repr

deriving instance DecidableEq for Except

/-! ## The standard library functions used by `parseTag` -/

/-- Models `strings.Split(s, sep)` for a one-byte separator: the pieces of `s` between the occurrences
of `sep` (one more piece than there are occurrences). -/
def Split (s : Bytes) (sep : Char) : List Bytes :=
  match s with
  | [] => [[]]
  | c :: rest =>
    if c = sep then [] :: Split rest sep
    else
      match Split rest sep with
      | [] => [[c]]
      | p :: ps => (c :: p) :: ps

/-- The width of the Go `int` (`strconv.IntSize`). -/
def intSize : Nat := 64

/-- The two kinds of `*strconv.NumError`. -/
inductive NumError where
  | malformed
  | outOfRange
  deriving DecidableEq, Repr

/-- The digit loop of `strconv.Atoi` / `strconv.ParseUint` in base 10:
`ch -= '0'; if ch > 9 { error }; n = n*10 + ch`. -/
def parseDigits : Bytes → Nat → Option Nat
  | [], n => some n
  | ch :: rest, n =>
    if 48 ≤ ch.toNat ∧ ch.toNat ≤ 57 then parseDigits rest (n * 10 + (ch.toNat - 48)) else none

/-- Models `strconv.Atoi`: an optional sign `+` or `-`, then at least one decimal digit and nothing
else; the value has to fit the `int`. (The fast path of `Atoi` and `ParseInt(s, 10, 0)` agree on
this; which `NumError` a string that is both malformed and too long gets is not modelled, the
caller only tests `err != nil`.) -/
def Atoi (s : Bytes) : Except NumError Int :=
  let neg : Bool := s.head? = some '-'
  let digits : Bytes :=
    match s with
    | '-' :: r => r
    | '+' :: r => r
    | _ => s
  if digits = [] then .error .malformed
  else
    match parseDigits digits 0 with
    | none => .error .malformed
    | some un =>
      if neg then
        if un > 2 ^ (intSize - 1) then .error .outOfRange else .ok (-(un : Int))
      else
        if un ≥ 2 ^ (intSize - 1) then .error .outOfRange else .ok (un : Int)

/-- Models `strconv.Itoa`. -/
def Itoa (i : Int) : Bytes :=
  if i < 0 then '-' :: Nat.toDigits 10 i.natAbs else Nat.toDigits 10 i.toNat

/-! ## tags.go -/

/-- Models `parseTag` of tags.go. -/
def parseTag (tag : Bytes) : Except Error (Int × Int) :=
  match Split tag ':' with
  | [p0, p1] =>
    match Atoi p0 with
    | .error _ => .error .positionNotNumeric
    | .ok pos =>
      match Atoi p1 with
      | .error _ => .error .lengthNotNumeric
      | .ok length => .ok (pos, length)
  | _ => .error .missFormat

/-! ## Floating point values and `strconv.FormatFloat` -/

/-- A `float64` (or a `float32` widened by `reflect.Value.Float`): a finite value is
`(-1)^neg * mant * 2^exp`. -/
inductive GoFloat where
  | finite (neg : Bool) (mant : Nat) (exp : Int)
  | inf (neg : Bool)
  | nan
  deriving DecidableEq, Repr

/-- The nearest natural number to `num / den`, ties to even. -/
def roundHalfEven (num den : Nat) : Nat :=
  let q := num / den
  let r := num % den
  if 2 * r > den ∨ (2 * r = den ∧ q % 2 = 1) then q + 1 else q

/-- The digit string `ds` padded with zeros on the left to `n` digits. -/
def padZeros (n : Nat) (ds : Bytes) : Bytes :=
  List.replicate (n - ds.length) '0' ++ ds

/-- Models `strconv.FormatFloat(f, 'f', prec, bitSize)` for `prec ≥ 0`: the exact value rounded, ties
to even, to `prec` digits after the decimal point; no exponent; no point when `prec = 0`. -/
def FormatFloat (f : GoFloat) (prec : Nat) : Bytes :=
  match f with
  | .nan => ['N', 'a', 'N']
  | .inf false => ['+', 'I', 'n', 'f']
  | .inf true => ['-', 'I', 'n', 'f']
  | .finite neg mant exp =>
    let scaled : Nat :=
      if 0 ≤ exp then mant * 2 ^ exp.toNat * 10 ^ prec
      else roundHalfEven (mant * 10 ^ prec) (2 ^ (-exp).toNat)
    let sign : Bytes := if neg then ['-'] else []
    let whole : Bytes := Nat.toDigits 10 (scaled / 10 ^ prec)
    if prec = 0 then sign ++ whole
    else sign ++ whole ++ '.' :: padZeros prec (Nat.toDigits 10 (scaled % 10 ^ prec))

/-! ## encode.go: the data -/

/-- The struct `fieldSpec`. -/
structure fieldSpec where
  position : Int
  length : Int
  value : Bytes
  deriving DecidableEq, Repr

mutual
/-- A `reflect.Value` with its type, by the branch of `newValueEncoder` the type selects. -/
inductive Value where
  /-- The type implements `encoding.TextMarshaler`; `text` is what `MarshalText` returns,
  `underlying` is the value seen through its `Kind`. -/
  | textMarshaler (typeName : String) (text : Except Error Bytes) (underlying : Value)
  /-- Kind `Ptr` or `Interface`, of a type without `MarshalText`: nil, or the value it holds. -/
  | ptr (elem : Option Value)
  /-- Kind `Struct`, with its fields in declaration order. -/
  | struct (fields : List StructField)
  /-- Kind `String`. -/
  | string (s : Bytes)
  /-- Kind `Int`, `Int64`, `Int32`, `Int16` or `Int8`. -/
  | int (i : Int)
  /-- Kind `Float64`. -/
  | float64 (f : GoFloat)
  /-- Kind `Float32`. -/
  | float32 (f : GoFloat)
  /-- Kind `Slice`: `typeName` is `t.Name()`. -/
  | slice (typeName : String) (elems : List Value)
  /-- Any other kind (`Bool`, `Uint`, `Map`, ...): `typeName` is `t.Name()`. -/
  | other (typeName : String)
/-- A struct field: `tag` is `f.Tag.Get("fixcsv")` (empty when the key is absent), `value` is
`v.Field(i)` with the type `f.Type`. -/
inductive StructField where
  | mk (tag : Bytes) (value : Value)
end

/-- The result of `f.Tag.Get("fixcsv")`. -/
def StructField.tag : StructField → Bytes
  | .mk tag _ => tag

/-- The field value `v.Field(i)`. -/
def StructField.value : StructField → Value
  | .mk _ value => value

/-- Models `fieldSpecSorter.Less` on two elements. -/
def Less (a b : fieldSpec) : Bool := a.position < b.position

/-- What `sort.Sort(fieldSpecSorter(specs))` is documented to do: it leaves a permutation of
the slice in which no later element is `Less` than an earlier one. -/
structure Sorter where
  sort : List fieldSpec → List fieldSpec
  perm : ∀ l, (sort l).Perm l
  sorted : ∀ l, (sort l).Pairwise (fun a b => Less b a = false)

/-! ## encode.go: the encoders -/

/-- The slice expression `value[:hi]`, which panics when `hi` is out of range. -/
def sliceTo (value : Bytes) (hi : Int) : Except Error Bytes :=
  if hi < 0 ∨ (value.length : Int) < hi then .error (.encodePanic hi)
  else .ok (value.take hi.toNat)

/-- The loop of `encodeSpecs` from index `idx` on, `n` being `len(specs)` and `data` the buffer;
a panic leaves the loop with the recovered error. -/
def encodeLoop (n : Nat) : Nat → List fieldSpec → Bytes → Except Error Bytes
  | _, [], data => .ok data
  | idx, spec :: rest, data =>
    let written : Except Error Bytes :=
      if (spec.value.length : Int) > spec.length then sliceTo spec.value spec.length
      else .ok spec.value
    match written with
    | .error e => .error e
    | .ok seg =>
      if idx ≠ n - 1 then encodeLoop n (idx + 1) rest (data ++ seg ++ delimeter)
      else encodeLoop n (idx + 1) rest (data ++ seg)

/-- Models `encodeSpecs` of encode.go. -/
def encodeSpecs (S : Sorter) (specs : List fieldSpec) : Except Error Bytes :=
  let specs := S.sort specs
  encodeLoop specs.length 0 specs []

/-- Models `textMarshalerEncoder`: the result of `MarshalText`. -/
def textMarshalerEncoder (text : Except Error Bytes) : Except Error Bytes := text

/-- Models `stringEncoder`. -/
def stringEncoder (s : Bytes) : Except Error Bytes := .ok s

/-- Models `intEncoder`. -/
def intEncoder (i : Int) : Except Error Bytes := .ok (Itoa i)

/-- Models `floatEncoder(perc, bitSize)`. -/
def floatEncoder (perc _bitSize : Nat) (f : GoFloat) : Except Error Bytes :=
  .ok (FormatFloat f perc)

/-- Models `nilEncoder`. -/
def nilEncoder : Except Error Bytes := .ok []

/-- Models `unknownTypeEncoder(t)`. -/
def unknownTypeEncoder (typeName : String) : Except Error Bytes :=
  .error (.MarshalInvalidTypeError typeName)

mutual
/-- Models `newValueEncoder(t)(v)` of encode.go; the `Struct` branch is the body of `structEncoder`. -/
def newValueEncoder (S : Sorter) : Value → Except Error Bytes
  | .textMarshaler _ text _ => textMarshalerEncoder text
  | .ptr elem => ptrInterfaceEncoder S elem
  | .struct fields =>
    match structFields S fields [] with
    | .error e => .error e
    | .ok specs => encodeSpecs S specs
  | .string s => stringEncoder s
  | .int i => intEncoder i
  | .float64 f => floatEncoder 0 64 f
  | .float32 f => floatEncoder 0 32 f
  | .slice typeName _ => unknownTypeEncoder typeName
  | .other typeName => unknownTypeEncoder typeName
/-- Models `ptrInterfaceEncoder`. -/
def ptrInterfaceEncoder (S : Sorter) : Option Value → Except Error Bytes
  | none => nilEncoder
  | some v => newValueEncoder S v
/-- The field loop of `structEncoder`, `specs` being the slice collected so far. -/
def structFields (S : Sorter) : List StructField → List fieldSpec →
    Except Error (List fieldSpec)
  | [], specs => .ok specs
  | .mk tag value :: rest, specs =>
    match parseTag tag with
    | .error _ => structFields S rest specs
    | .ok (position, length) =>
      match newValueEncoder S value with
      | .error e => .error e
      | .ok b => structFields S rest (specs ++ [⟨position, length, b⟩])
end

/-- Models `structEncoder` of encode.go, on the fields of the struct value. -/
def structEncoder (S : Sorter) (fields : List StructField) : Except Error Bytes :=
  match structFields S fields [] with
  | .error e => .error e
  | .ok specs => encodeSpecs S specs

/-- Models `Encoder.writeLine`, `w` being the bytes written so far. -/
def writeLine (S : Sorter) (w : Bytes) (v : Value) : Except Error Bytes :=
  match newValueEncoder S v with
  | .error e => .error e
  | .ok b => .ok (w ++ b)

/-- The loop of `Encoder.writeLines` from index `i` on, `n` being `v.Len()`. -/
def writeLinesLoop (S : Sorter) (n : Nat) : Nat → List Value → Bytes → Except Error Bytes
  | _, [], w => .ok w
  | i, v :: rest, w =>
    match writeLine S w v with
    | .error e => .error e
    | .ok w1 =>
      if i ≠ n - 1 then writeLinesLoop S n (i + 1) rest (w1 ++ ['\n'])
      else writeLinesLoop S n (i + 1) rest w1

/-- Models `Encoder.writeLines`. -/
def writeLines (S : Sorter) (w : Bytes) (elems : List Value) : Except Error Bytes :=
  writeLinesLoop S elems.length 0 elems w

/-- The loop `for v.Kind() == Ptr || v.Kind() == Interface { v = v.Elem() }` of `Encode`;
`none` is the invalid `Value` that `Elem` gives for nil. -/
def indirect : Value → Option Value
  | .textMarshaler _ _ underlying => indirect underlying
  | .ptr none => none
  | .ptr (some v) => indirect v
  | v => some v

/-- Models `Encoder.Encode`, returning the bytes flushed to the writer; `none` is the nil interface. -/
def Encode (S : Sorter) (w : Bytes) (i : Option Value) : Except Error Bytes :=
  match i with
  | none => .ok w
  | some i =>
    match indirect i with
    | some (.slice _ elems) => writeLines S w elems
    | _ => writeLine S w i

/-- Models `Marshal` of encode.go. -/
def Marshal (S : Sorter) (v : Option Value) : Except Error Bytes :=
  Encode S [] v

/-! ## Two sorts that meet the contract of `sort.Sort` -/

/-- The order `!Less(b, a)` of two specs: the position of `a` is at most that of `b`. -/
abbrev posLE (a b : fieldSpec) : Prop := a.position ≤ b.position

instance posLE_total : IsTotal fieldSpec posLE :=
  ⟨fun a b => le_total a.position b.position⟩

instance posLE_trans : IsTrans fieldSpec posLE :=
  ⟨fun _ _ _ h1 h2 => le_trans h1 h2⟩

instance posLT_antisymm : IsAntisymm fieldSpec (fun a b => a.position < b.position) :=
  ⟨fun _ _ h1 h2 => absurd h1 (lt_asymm h2)⟩

/-- Insertion sort by position, which keeps specs of equal position in their order: what
`insertionSort` of package sort computes (`sort.Sort` since Go 1.19 on at most 12 elements). -/
def insertionSort (l : List fieldSpec) : List fieldSpec :=
  List.insertionSort posLE l

/-- The stable insertion sort as a `Sorter`. -/
def stableSorter : Sorter where
  sort := insertionSort
  perm := fun l => List.perm_insertionSort posLE l
  sorted := fun l => by
    have h := List.sorted_insertionSort posLE l
    refine List.Pairwise.imp ?_ h
    intro a b hab
    have hab2 : a.position ≤ b.position := hab
    simp [Less, hab2]

/-! ### The sort of `sort.Sort` since Go 1.19 (pattern-defeating quicksort) -/

/-- Models `data.Less(i, j)` on the slice `l`. -/
def lessAt (l : List fieldSpec) (i j : Nat) : Bool :=
  match l[i]?, l[j]? with
  | some x, some y => Less x y
  | _, _ => false

/-- Models `data.Swap(i, j)` on the slice `l`. -/
def swapAt (l : List fieldSpec) (i j : Nat) : List fieldSpec :=
  match l[i]?, l[j]? with
  | some x, some y => (l.set i y).set j x
  | _, _ => l

/-- Models `order2` of package sort: the two indices in order, and the swap counter. -/
def order2 (l : List fieldSpec) (a b swaps : Nat) : Nat × Nat × Nat :=
  if lessAt l b a then (b, a, swaps + 1) else (a, b, swaps)

/-- Models `median` of package sort: the index of the median of three, and the swap counter. -/
def median (l : List fieldSpec) (a b c swaps : Nat) : Nat × Nat :=
  let r1 := order2 l a b swaps
  let r2 := order2 l r1.2.1 c r1.2.2
  let r3 := order2 l r1.1 r2.1 r2.2.2
  (r3.2.1, r3.2.2)

/-- The hint of `choosePivot`. -/
inductive sortedHint where
  | unknownHint
  | increasingHint
  | decreasingHint
  deriving DecidableEq, Repr

/-- Models `choosePivot(data, a, b)` of package sort for `8 ≤ b - a < 50`: the median of the
elements at `a + l/4`, `a + l/4*2` and `a + l/4*3`. -/
def choosePivot (l : List fieldSpec) (a b : Nat) : Nat × sortedHint :=
  let len := b - a
  let r := median l (a + len / 4 * 1) (a + len / 4 * 2) (a + len / 4 * 3) 0
  if r.2 = 0 then (r.1, .increasingHint)
  else if r.2 = 12 then (r.1, .decreasingHint)
  else (r.1, .unknownHint)

/-- The loop `for i < b && !data.Less(i, i-1) { i++ }` of `partialInsertionSort`. -/
def ascendingRun (l : List fieldSpec) (b : Nat) : Nat → Nat → Nat
  | 0, i => i
  | fuel + 1, i =>
    if i < b ∧ lessAt l i (i - 1) = false then ascendingRun l b fuel (i + 1) else i

/-- Models `partialInsertionSort(data, a, b)` of package sort for `b - a < 50`, where it moves
nothing: whether the slice is in order already. -/
def partialInsertionSort (l : List fieldSpec) (a b : Nat) : Bool :=
  ascendingRun l b l.length (a + 1) = b

/-- The loop `for i <= j && data.Less(i, a) { i++ }` of `partition`. -/
def scanLess (l : List fieldSpec) (a j : Nat) : Nat → Nat → Nat
  | 0, i => i
  | fuel + 1, i => if i ≤ j ∧ lessAt l i a = true then scanLess l a j fuel (i + 1) else i

/-- The loop `for i <= j && !data.Less(j, a) { j-- }` of `partition`. -/
def scanNotLess (l : List fieldSpec) (a i : Nat) : Nat → Nat → Nat
  | 0, j => j
  | fuel + 1, j => if i ≤ j ∧ lessAt l j a = false then scanNotLess l a i fuel (j - 1) else j

/-- The loop `for { ... }` of `partition`: the slice and `j` when it breaks. -/
def partitionLoop (a : Nat) : Nat → List fieldSpec → Nat → Nat → List fieldSpec × Nat
  | 0, l, _, j => (l, j)
  | fuel + 1, l, i, j =>
    let i1 := scanLess l a j l.length i
    let j1 := scanNotLess l a i1 l.length j
    if i1 > j1 then (l, j1)
    else partitionLoop a fuel (swapAt l i1 j1) (i1 + 1) (j1 - 1)

/-- Models `partition(data, a, b, pivot)` of package sort: the slice, the new index of the
pivot and whether the slice was partitioned already. -/
def partition (l : List fieldSpec) (a b pivot : Nat) : List fieldSpec × Nat × Bool :=
  let l1 := swapAt l a pivot
  let i := scanLess l1 a (b - 1) l1.length (a + 1)
  let j := scanNotLess l1 a i l1.length (b - 1)
  if i > j then (swapAt l1 j a, j, true)
  else
    let r := partitionLoop a l1.length (swapAt l1 i j) (i + 1) (j - 1)
    (swapAt r.1 r.2 a, r.2, false)

/-- Models `sort.Sort` since Go 1.19, `pdqsort(data, 0, n, bits.Len(n))`, exactly for slices of
at most 13 elements. Up to 12 elements it is insertion sort. For 13 elements the first round
chooses the pivot, returns when the slice is in order already (insertion sort leaves such a
slice as it is), and otherwise partitions; both sides then have at most 12 elements and are
insertion sorted, and as no element left of the pivot is at or above it, that is the insertion
sort of the whole partitioned slice. On longer slices Go goes on partitioning the sides; here
the same steps are applied, which still sorts. -/
def pdqSort (l : List fieldSpec) : List fieldSpec :=
  if l.length ≤ 12 then insertionSort l
  else
    let c := choosePivot l 0 l.length
    if c.2 = .increasingHint ∧ partialInsertionSort l 0 l.length = true then insertionSort l
    else insertionSort (partition l 0 l.length c.1).1

/-- The sort `pdqSort` as a `Sorter`: it meets the contract and is not stable. -/
def pdqSorter : Sorter where
  sort := pdqSort
  perm := fun l => by
    have hswap : ∀ (m : List fieldSpec) (i j : Nat), (swapAt m i j).Perm m := by
      intro m i j
      unfold swapAt
      cases hi : m[i]? with
      | none => simp
      | some x =>
        cases hj : m[j]? with
        | none => simp
        | some y =>
          simp only []
          obtain ⟨hil, hix⟩ := List.getElem?_eq_some_iff.mp hi
          obtain ⟨hjl, hjy⟩ := List.getElem?_eq_some_iff.mp hj
          rw [List.perm_iff_count]
          intro b
          have hjl2 : j < (m.set i y).length := by simpa using hjl
          rw [List.count_set x b (m.set i y) j hjl2, List.count_set y b m i hil]
          have hget : (m.set i y)[j] = y := by
            rw [List.getElem_set]
            split
            · rfl
            · exact hjy
          rw [hget, hix]
          have hpos : (x == b) = true → 0 < m.count b := by
            intro hxb
            have hxb2 : x = b := by simpa using hxb
            rw [← hxb2]
            exact List.count_pos_iff.mpr (hix ▸ List.getElem_mem _)
          by_cases hxb : (x == b) = true <;> by_cases hyb : (y == b) = true
          · have := hpos hxb; simp [hxb, hyb]; omega
          · have := hpos hxb; simp [hxb, hyb]; omega
          · simp [hxb, hyb]
          · simp [hxb, hyb]
    have hloop : ∀ (a fuel : Nat) (m : List fieldSpec) (i j : Nat),
        (partitionLoop a fuel m i j).1.Perm m := by
      intro a fuel
      induction fuel with
      | zero => intro m i j; simp [partitionLoop]
      | succ fuel ih =>
        intro m i j
        simp only [partitionLoop]
        split
        · exact List.Perm.refl _
        · exact (ih _ _ _).trans (hswap m _ _)
    have hpart : ∀ (m : List fieldSpec) (a b pivot : Nat),
        (partition m a b pivot).1.Perm m := by
      intro m a b pivot
      simp only [partition]
      split
      · exact (hswap _ _ _).trans (hswap m _ _)
      · exact (hswap _ _ _).trans
          ((hloop _ _ _ _ _).trans ((hswap _ _ _).trans (hswap m _ _)))
    unfold pdqSort
    split
    · exact List.perm_insertionSort posLE l
    · simp only []
      split
      · exact List.perm_insertionSort posLE l
      · exact (List.perm_insertionSort posLE _).trans (hpart l _ _ _)
  sorted := fun l => by
    have hsorted : ∀ m : List fieldSpec,
        (insertionSort m).Pairwise (fun a b => Less b a = false) := by
      intro m
      refine List.Pairwise.imp ?_ (List.sorted_insertionSort posLE m)
      intro a b hab
      have hab2 : a.position ≤ b.position := hab
      simp [Less, hab2]
    unfold pdqSort
    split
    · exact hsorted l
    · simp only []
      split
      · exact hsorted l
      · exact hsorted _

/-! ## The line as the specification describes it -/

/-- The first `min(len, length)` bytes of a rendered value. -/
def cut (value : Bytes) (length : Int) : Bytes :=
  value.take (min value.length length.toNat)

/-- The segment of a field in the line: its rendered value cut to its declared length. -/
def segment (spec : fieldSpec) : Bytes :=
  cut spec.value spec.length

/-- The segments joined with the delimiter between consecutive ones and nowhere else. -/
def joinSegments (segs : List Bytes) : Bytes :=
  List.intercalate delimeter segs

/-- The rendered bytes of a value, empty when rendering fails. -/
def rendered (S : Sorter) (v : Value) : Bytes :=
  match newValueEncoder S v with
  | .ok b => b
  | .error _ => []

/-- A field is validly tagged when its metadata string parses. -/
def validlyTagged (f : StructField) : Bool :=
  match parseTag f.tag with
  | .ok _ => true
  | .error _ => false

/-- The validly tagged fields of a record, in declaration order, each with its declared
position, its declared length and its rendered value. -/
def declaredSpecs (S : Sorter) (fields : List StructField) : List fieldSpec :=
  fields.filterMap fun f =>
    match parseTag f.tag with
    | .ok (position, length) => some ⟨position, length, rendered S f.value⟩
    | .error _ => none

/-- The error of the first validly tagged field, in declaration order, whose rendering fails. -/
def firstRenderError (S : Sorter) (fields : List StructField) : Option Error :=
  fields.findSome? fun f =>
    match parseTag f.tag with
    | .ok _ =>
      match newValueEncoder S f.value with
      | .error e => some e
      | .ok _ => none
    | .error _ => none

/-- Whether a value renders without error. -/
def renders (S : Sorter) (v : Value) : Bool :=
  match newValueEncoder S v with
  | .ok _ => true
  | .error _ => false

/-- The declared position of a validly tagged field. -/
def declaredPosition (f : StructField) : Option Int :=
  match parseTag f.tag with
  | .ok (position, _) => some position
  | .error _ => none

/-- The value is of kind `Ptr` or `Interface` and holds nil, whether or not its type has a
custom renderer. -/
def isNilPointer : Value → Bool
  | .ptr none => true
  | .textMarshaler _ _ (.ptr none) => true
  | _ => false

/-- The specs in ascending order of position. -/
def orderByPosition (specs : List fieldSpec) : List fieldSpec :=
  List.insertionSort posLE specs

/-- The line of a record as the specification describes it: the validly tagged fields ordered
by ascending position, each cut to its length, joined with the delimiter. -/
def specLine (S : Sorter) (fields : List StructField) : Bytes :=
  joinSegments ((orderByPosition (declaredSpecs S fields)).map segment)

/-! ## The metadata syntax `parseTag` accepts -/

/-- The byte is one of `0` to `9`. -/
def isDigitByte (c : Char) : Prop := 48 ≤ c.toNat ∧ c.toNat ≤ 57

/-- The number a string of decimal digits denotes. -/
def decimalValue (digits : Bytes) : Nat :=
  digits.foldl (fun n c => n * 10 + (c.toNat - 48)) 0

/-- A non-empty string of decimal digits. -/
def IsDecimal (digits : Bytes) : Prop :=
  digits ≠ [] ∧ ∀ c ∈ digits, isDigitByte c

/-- A base-10 integer that fits the `int`: decimal digits after an optional sign `+` or `-`,
with a value from `-2^(intSize-1)` to `2^(intSize-1) - 1`. -/
def IsSignedDecimal (s : Bytes) : Prop :=
  match s with
  | '-' :: digits => IsDecimal digits ∧ decimalValue digits ≤ 2 ^ (intSize - 1)
  | '+' :: digits => IsDecimal digits ∧ decimalValue digits < 2 ^ (intSize - 1)
  | digits => IsDecimal digits ∧ decimalValue digits < 2 ^ (intSize - 1)

/-- The integer a signed decimal string denotes. -/
def signedValue (s : Bytes) : Int :=
  match s with
  | '-' :: digits => -(decimalValue digits : Int)
  | '+' :: digits => (decimalValue digits : Int)
  | digits => (decimalValue digits : Int)

/-! ## The output of a sequence as the specification describes it -/

/-- The lines joined with a single newline between consecutive ones and nowhere else. -/
def joinLines (lines : List Bytes) : Bytes :=
  List.intercalate ['\n'] lines

/-- The error of the first element, in sequence order, that fails to encode. -/
def firstElemError (S : Sorter) (elems : List Value) : Option Error :=
  elems.findSome? fun v =>
    match newValueEncoder S v with
    | .error e => some e
    | .ok _ => none

/-- The natural number `n` is an integer nearest to `mant * 2^exp`: twice the distance is at
most 1 (the inequality is multiplied by the power of two that `exp < 0` divides by). -/
def IsNearestInteger (n mant : Nat) (exp : Int) : Prop :=
  2 * Int.natAbs ((mant : Int) * 2 ^ exp.toNat - (n : Int) * 2 ^ (-exp).toNat) ≤
    2 ^ (-exp).toNat

/-! ## Records used as concrete inputs -/

/-- The fields of the record of `TestMarshaling` in encode_test.go (12.0 is `3 * 2^2`). -/
def testInfoFields : List StructField :=
  [.mk "1:5".toList (.string "123456789".toList),
   .mk "2:8".toList (.string "123".toList),
   .mk "3:8".toList (.string "22222222222".toList),
   .mk "4:5".toList (.string "123123123".toList),
   .mk "5:5".toList (.string "0".toList),
   .mk "6:10".toList (.float64 (.finite false 3 2))]

/-- The record of `TestMarshaling`. -/
def testInfo : Value := .struct testInfoFields

/-- A record declared out of position order, with values longer and shorter than the lengths. -/
def shuffledFields : List StructField :=
  [.mk "3:2".toList (.string "ccc".toList),
   .mk "1:4".toList (.int (-17)),
   .mk "2:1".toList (.string "bb".toList)]

/-- Thirteen fields of which the first three, `a`, `b` and `c`, share position 5. -/
def tiedFields : List StructField :=
  [.mk "5:1".toList (.string "a".toList),
   .mk "5:1".toList (.string "b".toList),
   .mk "5:1".toList (.string "c".toList),
   .mk "1:1".toList (.string "d".toList),
   .mk "6:1".toList (.string "e".toList),
   .mk "7:1".toList (.string "f".toList),
   .mk "2:1".toList (.string "g".toList),
   .mk "8:1".toList (.string "h".toList),
   .mk "9:1".toList (.string "i".toList),
   .mk "3:1".toList (.string "j".toList),
   .mk "10:1".toList (.string "k".toList),
   .mk "11:1".toList (.string "l".toList),
   .mk "12:1".toList (.string "m".toList)]

/-- A record with a field whose tag declares the length -5. -/
def negLengthFields : List StructField :=
  [.mk "1:-5".toList (.string "abc".toList),
   .mk "2:3".toList (.string "xyz".toList)]

/-- A record with a field whose tag declares the position -1. -/
def negPositionFields : List StructField :=
  [.mk "1:3".toList (.string "abc".toList),
   .mk "-1:5".toList (.string "neg".toList)]

/-- A record with two fields without usable metadata (no tag, three parts) among tagged ones. -/
def partlyTaggedFields : List StructField :=
  [.mk "2:3".toList (.string "second".toList),
   .mk [] (.string "hidden".toList),
   .mk "1:2:3".toList (.int 7),
   .mk "1:9".toList (.int 42)]

/-- A record whose first field has a custom renderer that fails and whose second field is a
boolean. -/
def failingFirstFields : List StructField :=
  [.mk "1:5".toList (.textMarshaler "Stamp" (.error (.marshalText "bad stamp")) (.int 0)),
   .mk "2:5".toList (.other "bool")]

/-- A record with a boolean field between two string fields. -/
def boolFields : List StructField :=
  [.mk "1:5".toList (.string "abc".toList),
   .mk "2:5".toList (.other "bool"),
   .mk "3:5".toList (.string "xyz".toList)]

/-- A record whose second field is a nil pointer of a type whose `MarshalText` returns `<nil>`
for the nil pointer (as that of `*big.Int` does). -/
def nilCustomFields : List StructField :=
  [.mk "1:3".toList (.string "abc".toList),
   .mk "2:5".toList (.textMarshaler "Int" (.ok "<nil>".toList) (.ptr none)),
   .mk "3:3".toList (.string "xyz".toList)]

/-- A record whose second field is a nil pointer of a type whose `MarshalText` returns an
error. -/
def nilFailingFields : List StructField :=
  [.mk "1:3".toList (.string "abc".toList),
   .mk "2:5".toList (.textMarshaler "Code" (.error (.marshalText "second")) (.ptr none))]

/-- A record with a nil pointer field between two string fields. -/
def nilPointerFields : List StructField :=
  [.mk "3:3".toList (.string "xyz".toList),
   .mk "2:4".toList (.ptr none),
   .mk "1:3".toList (.string "abc".toList)]

/-- A record that encodes to the line `x||y`. -/
def recordXY : List StructField :=
  [.mk "1:1".toList (.string "x".toList),
   .mk "2:1".toList (.string "y".toList)]

/-- A record that encodes to the line `p||q`. -/
def recordPQ : List StructField :=
  [.mk "2:1".toList (.string "q".toList),
   .mk "1:1".toList (.string "p".toList)]

/-- A record whose only field is a string with a newline byte in it. -/
def newlineFields : List StructField :=
  [.mk "1:5".toList (.string ['a', '\n', 'b'])]

/-- A record whose only field is the `float64` 12.5, which is `25 * 2^(-1)`, with room for ten
bytes. -/
def floatFields : List StructField :=
  [.mk "1:10".toList (.float64 (.finite false 25 (-1)))]

/-- A record whose two fields both have a custom renderer that fails, with different errors. -/
def twoFailingFields : List StructField :=
  [.mk "1:5".toList (.textMarshaler "Stamp" (.error (.marshalText "first")) (.int 0)),
   .mk "2:5".toList (.textMarshaler "Code" (.error (.marshalText "second")) (.ptr none))]

/-- A record with a string-kind field whose type has a custom renderer that succeeds. -/
def customFields : List StructField :=
  [.mk "2:9".toList (.textMarshaler "Code" (.ok "custom".toList) (.string "plain".toList)),
   .mk "1:3".toList (.int 5)]

/-- The fields of the structure nested in `nestedFields`. -/
def innerFields : List StructField :=
  [.mk "2:3".toList (.string "wxyz".toList),
   .mk "1:2".toList (.string "ab".toList)]

/-- A record whose first field is a nested structure, with room for six bytes. -/
def nestedFields : List StructField :=
  [.mk "2:6".toList (.struct innerFields),
   .mk "1:3".toList (.string "head".toList)]

/-- A record none of whose fields has parseable metadata. -/
def untaggedFields : List StructField :=
  [.mk [] (.other "bool"),
   .mk "x:1".toList (.string "v".toList),
   .mk "1".toList (.int 3)]

/-- Three specs given out of order: one longer than its length, one shorter, one empty. -/
def mixedSpecs : List fieldSpec :=
  [⟨3, 2, "abcdef".toList⟩, ⟨1, 8, "xy".toList⟩, ⟨2, 4, []⟩]

/-- A record with an untagged boolean field between two tagged string fields. -/
def hiddenBoolFields : List StructField :=
  [.mk "1:3".toList (.string "abc".toList),
   .mk [] (.other "bool"),
   .mk "2:3".toList (.string "xyz".toList)]

/-! ## The truncate-and-join loop -/

theorem joinSegments_nil : joinSegments [] = [] := rfl

theorem joinSegments_singleton (a : Bytes) : joinSegments [a] = a := by
  simp [joinSegments, List.intercalate]

theorem joinSegments_cons_cons (a b : Bytes) (l : List Bytes) :
    joinSegments (a :: b :: l) = a ++ delimeter ++ joinSegments (b :: l) := by
  simp [joinSegments, List.intercalate]

/-- What one iteration of the loop of `encodeSpecs` writes for a spec of length at least 0. -/
theorem written_of_nonneg (spec : fieldSpec) (h : 0 ≤ spec.length) :
    (if (spec.value.length : Int) > spec.length then sliceTo spec.value spec.length
      else Except.ok spec.value) = Except.ok (segment spec) := by
  unfold segment cut sliceTo
  by_cases hgt : (spec.value.length : Int) > spec.length
  · have h1 : ¬ (spec.length < 0 ∨ (spec.value.length : Int) < spec.length) := by omega
    have h2 : min spec.value.length spec.length.toNat = spec.length.toNat := by omega
    simp only [hgt, h1, if_true, if_false, h2]
  · have h2 : min spec.value.length spec.length.toNat = spec.value.length := by omega
    simp only [hgt, if_false, h2, List.take_length]

/-- What one iteration of the loop of `encodeSpecs` does for a spec of negative length. -/
theorem written_of_neg (spec : fieldSpec) (h : spec.length < 0) :
    (if (spec.value.length : Int) > spec.length then sliceTo spec.value spec.length
      else Except.ok spec.value) = Except.error (Error.encodePanic spec.length) := by
  unfold sliceTo
  have hgt : (spec.value.length : Int) > spec.length := by omega
  simp [hgt, h]

theorem encodeLoop_ok (n : Nat) (l : List fieldSpec) :
    ∀ (idx : Nat) (data : Bytes), (∀ s ∈ l, 0 ≤ s.length) → idx + l.length = n →
      encodeLoop n idx l data = Except.ok (data ++ joinSegments (l.map segment)) := by
  induction l with
  | nil => intro idx data _ _; simp [encodeLoop, joinSegments_nil]
  | cons spec rest ih =>
    intro idx data hl hn
    have hs : 0 ≤ spec.length := hl spec (List.mem_cons_self _ _)
    have hrest : ∀ s ∈ rest, 0 ≤ s.length := fun s hs => hl s (List.mem_cons_of_mem _ hs)
    simp only [encodeLoop, written_of_nonneg spec hs]
    cases rest with
    | nil =>
      have hidx : idx = n - 1 := by simp at hn; omega
      simp [hidx, encodeLoop, joinSegments_singleton]
    | cons r rs =>
      have hidx : idx ≠ n - 1 := by simp at hn; omega
      have hn2 : idx + 1 + (r :: rs).length = n := by simp at hn ⊢; omega
      rw [if_pos hidx, ih (idx + 1) _ hrest hn2]
      simp [joinSegments_cons_cons]

theorem encodeLoop_neg (n : Nat) (l : List fieldSpec) :
    ∀ (idx : Nat) (data : Bytes), (∃ s ∈ l, s.length < 0) →
      ∃ e, encodeLoop n idx l data = Except.error e := by
  induction l with
  | nil => intro idx data h; obtain ⟨s, hs, _⟩ := h; cases hs
  | cons spec rest ih =>
    intro idx data h
    by_cases hs : spec.length < 0
    · exact ⟨Error.encodePanic spec.length, by simp only [encodeLoop, written_of_neg spec hs]⟩
    · have hs2 : 0 ≤ spec.length := by omega
      have hrest : ∃ s ∈ rest, s.length < 0 := by
        obtain ⟨s, hmem, hneg⟩ := h
        rcases List.mem_cons.mp hmem with rfl | hmem
        · exact absurd hneg hs
        · exact ⟨s, hmem, hneg⟩
      simp only [encodeLoop, written_of_nonneg spec hs2]
      split
      · exact ih _ _ hrest
      · exact ih _ _ hrest

theorem encodeSpecs_ok (S : Sorter) (specs : List fieldSpec) (h : ∀ s ∈ specs, 0 ≤ s.length) :
    encodeSpecs S specs = Except.ok (joinSegments ((S.sort specs).map segment)) := by
  unfold encodeSpecs
  have h2 : ∀ s ∈ S.sort specs, 0 ≤ s.length :=
    fun s hs => h s ((S.perm specs).mem_iff.mp hs)
  simpa using encodeLoop_ok (S.sort specs).length (S.sort specs) 0 [] h2 (by simp)

theorem encodeSpecs_neg (S : Sorter) (specs : List fieldSpec) (h : ∃ s ∈ specs, s.length < 0) :
    ∃ e, encodeSpecs S specs = Except.error e := by
  unfold encodeSpecs
  obtain ⟨s, hs, hneg⟩ := h
  exact encodeLoop_neg _ _ 0 [] ⟨s, (S.perm specs).mem_iff.mpr hs, hneg⟩

/-! ## The field loop of `structEncoder` -/

theorem structFields_eq (S : Sorter) (fields : List StructField) :
    ∀ acc : List fieldSpec, structFields S fields acc =
      match firstRenderError S fields with
      | some e => Except.error e
      | none => Except.ok (acc ++ declaredSpecs S fields) := by
  induction fields with
  | nil => intro acc; simp [structFields, firstRenderError, declaredSpecs]
  | cons f rest ih =>
    intro acc
    obtain ⟨tag, value⟩ := f
    cases hp : parseTag tag with
    | error e =>
      have := ih acc
      simp only [firstRenderError, declaredSpecs] at this
      simp [structFields, firstRenderError, declaredSpecs, StructField.tag, hp, this]
    | ok pl =>
      obtain ⟨p, l⟩ := pl
      cases hv : newValueEncoder S value with
      | error e =>
        simp [structFields, firstRenderError, StructField.tag, StructField.value, hp, hv]
      | ok b =>
        have := ih (acc ++ [⟨p, l, b⟩])
        simp only [firstRenderError, declaredSpecs] at this
        simp [structFields, firstRenderError, declaredSpecs, StructField.tag,
          StructField.value, rendered, hp, hv, this]

theorem structEncoder_eq (S : Sorter) (fields : List StructField) :
    structEncoder S fields =
      match firstRenderError S fields with
      | some e => Except.error e
      | none => encodeSpecs S (declaredSpecs S fields) := by
  unfold structEncoder
  rw [structFields_eq]
  cases firstRenderError S fields <;> simp

theorem newValueEncoder_struct (S : Sorter) (fields : List StructField) :
    newValueEncoder S (.struct fields) = structEncoder S fields := by
  simp [newValueEncoder, structEncoder]

theorem Marshal_struct (S : Sorter) (fields : List StructField) :
    Marshal S (some (.struct fields)) = structEncoder S fields := by
  simp only [Marshal, Encode, indirect, writeLine, newValueEncoder_struct]
  cases structEncoder S fields <;> simp

theorem firstRenderError_eq_none (S : Sorter) (fields : List StructField) :
    firstRenderError S fields = none ↔
      ∀ f ∈ fields, validlyTagged f = true → renders S f.value = true := by
  unfold firstRenderError validlyTagged renders
  rw [List.findSome?_eq_none_iff]
  constructor
  · intro h f hf ht
    have := h f hf
    cases hp : parseTag f.tag with
    | error e => simp [hp] at ht
    | ok pl =>
      cases hv : newValueEncoder S f.value with
      | error e => simp [hp, hv] at this
      | ok b => rfl
  · intro h f hf
    cases hp : parseTag f.tag with
    | error e => rfl
    | ok pl =>
      have hb := h f hf (by simp [hp])
      cases hv : newValueEncoder S f.value with
      | error e => simp [hv] at hb
      | ok b => rfl

/-! ## The order `sort.Sort` leaves -/

theorem pairwise_lt_of_nodup (l : List fieldSpec) (hs : l.Pairwise posLE)
    (hn : (l.map (·.position)).Nodup) : l.Pairwise (fun a b => a.position < b.position) := by
  have hne : l.Pairwise (fun a b => a.position ≠ b.position) := List.pairwise_map.mp hn
  exact (hs.and hne).imp (fun h => lt_of_le_of_ne h.1 h.2)

theorem sorted_posLE (S : Sorter) (specs : List fieldSpec) : (S.sort specs).Pairwise posLE := by
  refine (S.sorted specs).imp ?_
  intro a b h
  simpa [Less] using h

theorem sort_eq_orderByPosition (S : Sorter) (specs : List fieldSpec)
    (hn : (specs.map (·.position)).Nodup) : S.sort specs = orderByPosition specs := by
  have p1 := S.perm specs
  have p2 : (orderByPosition specs).Perm specs := List.perm_insertionSort posLE specs
  have n1 : ((S.sort specs).map (·.position)).Nodup := (p1.map _).nodup_iff.mpr hn
  have n2 : ((orderByPosition specs).map (·.position)).Nodup := (p2.map _).nodup_iff.mpr hn
  have s2 : (orderByPosition specs).Pairwise posLE := List.sorted_insertionSort posLE specs
  exact List.eq_of_perm_of_sorted (p1.trans p2.symm)
    (pairwise_lt_of_nodup _ (sorted_posLE S specs) n1) (pairwise_lt_of_nodup _ s2 n2)

theorem structEncoder_ok_iff (S : Sorter) (fields : List StructField) (line : Bytes) :
    structEncoder S fields = Except.ok line ↔
      firstRenderError S fields = none ∧ (∀ s ∈ declaredSpecs S fields, 0 ≤ s.length) ∧
        line = joinSegments ((S.sort (declaredSpecs S fields)).map segment) := by
  rw [structEncoder_eq]
  cases hf : firstRenderError S fields with
  | some e => simp
  | none =>
    by_cases hl : ∀ s ∈ declaredSpecs S fields, 0 ≤ s.length
    · simp only [encodeSpecs_ok S _ hl, Except.ok.injEq, true_and]
      constructor
      · intro h; exact ⟨hl, h.symm⟩
      · intro h; exact h.2.symm
    · have hneg : ∃ s ∈ declaredSpecs S fields, s.length < 0 := by
        push_neg at hl; exact hl
      obtain ⟨e, he⟩ := encodeSpecs_neg S _ hneg
      simp only [he, true_and]
      constructor
      · intro h; cases h
      · intro h; exact absurd h.1 hl

theorem declaredSpecs_positions (S : Sorter) (fields : List StructField) :
    (declaredSpecs S fields).map (·.position) = fields.filterMap declaredPosition := by
  induction fields with
  | nil => rfl
  | cons f rest ih =>
    unfold declaredSpecs declaredPosition at *
    cases hp : parseTag f.tag with
    | error e => simp [List.filterMap_cons, hp, ih]
    | ok pl => simp [List.filterMap_cons, hp, ih]

theorem declaredSpecs_length_of_all (S : Sorter) (fields : List StructField)
    (hall : ∀ f ∈ fields, validlyTagged f = true) :
    (declaredSpecs S fields).length = fields.length := by
  induction fields with
  | nil => rfl
  | cons f rest ih =>
    have hf := hall f (List.mem_cons_self _ _)
    have hrest := ih (fun g hg => hall g (List.mem_cons_of_mem _ hg))
    unfold validlyTagged at hf
    unfold declaredSpecs at hrest ⊢
    cases hp : parseTag f.tag with
    | error e => simp [hp] at hf
    | ok pl => simp [List.filterMap_cons, hp, hrest]

/-! ## The claims -/

/-- C1: for every record whose validly tagged fields have pairwise distinct positions,
non-negative declared lengths and values that render without error, `Marshal` returns, with no
error, the line of the specification: those fields ordered by ascending position, each rendered
value cut to its first `min(len, length)` bytes, joined with the delimiter between consecutive
fields and nowhere else. -/
theorem Marshal_record_eq_specLine (S : Sorter) (fields : List StructField)
    (hrender : ∀ f ∈ fields, validlyTagged f = true → renders S f.value = true)
    (hpos : ((declaredSpecs S fields).map (·.position)).Nodup)
    (hlen : ∀ s ∈ declaredSpecs S fields, 0 ≤ s.length) :
    Marshal S (some (.struct fields)) = Except.ok (specLine S fields) := by
  rw [Marshal_struct, structEncoder_ok_iff]
  refine ⟨(firstRenderError_eq_none S fields).mpr hrender, hlen, ?_⟩
  rw [specLine, sort_eq_orderByPosition S _ hpos]

/-- C1, at the record of `TestMarshaling`: the hypotheses hold and the line is
`12345||123||22222222||12312||0||12`. -/
theorem Marshal_record_eq_specLine_witness :
    (∀ f ∈ testInfoFields, validlyTagged f = true → renders stableSorter f.value = true) ∧
    ((declaredSpecs stableSorter testInfoFields).map (·.position)).Nodup ∧
    (∀ s ∈ declaredSpecs stableSorter testInfoFields, 0 ≤ s.length) ∧
    specLine stableSorter testInfoFields = "12345||123||22222222||12312||0||12".toList ∧
    Marshal stableSorter (some testInfo) =
      Except.ok "12345||123||22222222||12312||0||12".toList :=
  ⟨by decide, by decide, by decide, by decide,
    (Marshal_record_eq_specLine stableSorter testInfoFields (by decide) (by decide)
      (by decide)).trans (by decide)⟩

/-- C2: for every list of specs with lengths at least 0, `encodeSpecs` returns the join of one
segment per spec, in the sorted order; the segment of a spec whose value is longer than its
length is exactly the first `length` bytes of the value, and the segment of a spec whose value
has at most `length` bytes is the whole value, unpadded. -/
theorem encodeSpecs_segments (S : Sorter) (specs : List fieldSpec)
    (hlen : ∀ s ∈ specs, 0 ≤ s.length) :
    ∃ segs : List Bytes,
      encodeSpecs S specs = Except.ok (joinSegments segs) ∧
      List.Forall₂ (fun spec seg =>
        (spec.length < (spec.value.length : Int) →
          seg = spec.value.take spec.length.toNat ∧ (seg.length : Int) = spec.length) ∧
        ((spec.value.length : Int) ≤ spec.length → seg = spec.value))
        (S.sort specs) segs := by
  refine ⟨(S.sort specs).map segment, encodeSpecs_ok S specs hlen, ?_⟩
  rw [List.forall₂_map_right_iff, List.forall₂_same]
  intro spec hmem
  have h0 : 0 ≤ spec.length := hlen spec ((S.perm specs).mem_iff.mp hmem)
  unfold segment cut
  constructor
  · intro hlt
    have h2 : min spec.value.length spec.length.toNat = spec.length.toNat := by omega
    rw [h2]
    refine ⟨rfl, ?_⟩
    rw [List.length_take]
    omega
  · intro hle
    have h2 : min spec.value.length spec.length.toNat = spec.value.length := by omega
    rw [h2, List.take_length]

/-- C2, at two specs given out of order, one longer than its length and one shorter. -/
theorem encodeSpecs_segments_witness :
    (∀ s ∈ [(⟨2, 3, "abcdef".toList⟩ : fieldSpec), ⟨1, 8, "xy".toList⟩], 0 ≤ s.length) ∧
    ∃ segs : List Bytes,
      encodeSpecs stableSorter [⟨2, 3, "abcdef".toList⟩, ⟨1, 8, "xy".toList⟩] =
        Except.ok (joinSegments segs) ∧
      List.Forall₂ (fun spec seg =>
        (spec.length < (spec.value.length : Int) →
          seg = spec.value.take spec.length.toNat ∧ (seg.length : Int) = spec.length) ∧
        ((spec.value.length : Int) ≤ spec.length → seg = spec.value))
        (stableSorter.sort [⟨2, 3, "abcdef".toList⟩, ⟨1, 8, "xy".toList⟩]) segs :=
  ⟨by decide, encodeSpecs_segments stableSorter _ (by decide)⟩

/-- C3: for every record whose fields all carry valid metadata, whatever their declaration
order, the line is the join of the segments of the emitted fields, the emitted fields are a
permutation of the declared ones, and their positions, read left to right, are non-decreasing
and equal to the ascending sort of the declared positions. -/
theorem Marshal_positions_sorted (S : Sorter) (fields : List StructField) (line : Bytes)
    (hall : ∀ f ∈ fields, validlyTagged f = true)
    (hok : Marshal S (some (.struct fields)) = Except.ok line) :
    ∃ emitted : List fieldSpec,
      line = joinSegments (emitted.map segment) ∧
      emitted.Perm (declaredSpecs S fields) ∧
      emitted.length = fields.length ∧
      (emitted.map (·.position)).Sorted (· ≤ ·) ∧
      emitted.map (·.position) =
        List.insertionSort (· ≤ ·) (fields.filterMap declaredPosition) := by
  rw [Marshal_struct, structEncoder_ok_iff] at hok
  obtain ⟨_, _, hline⟩ := hok
  have hperm := S.perm (declaredSpecs S fields)
  have hsorted : ((S.sort (declaredSpecs S fields)).map (·.position)).Sorted (· ≤ ·) :=
    List.pairwise_map.mpr (sorted_posLE S _)
  have hlenEq := declaredSpecs_length_of_all S fields hall
  refine ⟨S.sort (declaredSpecs S fields), hline, hperm, ?_, hsorted, ?_⟩
  · rw [hperm.length_eq, hlenEq]
  · refine List.eq_of_perm_of_sorted ?_ hsorted (List.sorted_insertionSort (· ≤ ·) _)
    rw [← declaredSpecs_positions S fields]
    exact (hperm.map _).trans (List.perm_insertionSort (· ≤ ·) _).symm

/-- C3, at a record declared in the order of positions 3, 1, 2. -/
theorem Marshal_positions_sorted_witness :
    (∀ f ∈ shuffledFields, validlyTagged f = true) ∧
    Marshal stableSorter (some (.struct shuffledFields)) = Except.ok "-17||b||cc".toList ∧
    ∃ emitted : List fieldSpec,
      "-17||b||cc".toList = joinSegments (emitted.map segment) ∧
      emitted.Perm (declaredSpecs stableSorter shuffledFields) ∧
      emitted.length = shuffledFields.length ∧
      (emitted.map (·.position)).Sorted (· ≤ ·) ∧
      emitted.map (·.position) =
        List.insertionSort (· ≤ ·) (shuffledFields.filterMap declaredPosition) :=
  ⟨by decide, by decide,
    Marshal_positions_sorted stableSorter shuffledFields _ (by decide) (by decide)⟩

theorem firstRenderError_filter (S : Sorter) (fields : List StructField) :
    firstRenderError S (fields.filter validlyTagged) = firstRenderError S fields := by
  induction fields with
  | nil => rfl
  | cons f rest ih =>
    unfold firstRenderError validlyTagged at *
    cases hp : parseTag f.tag with
    | error e => simp [List.filter_cons, hp, ih]
    | ok pl =>
      cases hv : newValueEncoder S f.value with
      | error e => simp [List.filter_cons, hp, hv]
      | ok b => simp [List.filter_cons, hp, hv, ih]

theorem declaredSpecs_filter (S : Sorter) (fields : List StructField) :
    declaredSpecs S (fields.filter validlyTagged) = declaredSpecs S fields := by
  induction fields with
  | nil => rfl
  | cons f rest ih =>
    unfold declaredSpecs validlyTagged at *
    cases hp : parseTag f.tag with
    | error e => simp [List.filter_cons, hp, ih]
    | ok pl => simp [List.filter_cons, hp, ih]

theorem structEncoder_filter (S : Sorter) (fields : List StructField) :
    structEncoder S (fields.filter validlyTagged) = structEncoder S fields := by
  rw [structEncoder_eq, structEncoder_eq, firstRenderError_filter, declaredSpecs_filter]

theorem mem_declaredSpecs (S : Sorter) (fields : List StructField) (f : StructField)
    (p l : Int) (hf : f ∈ fields) (htag : parseTag f.tag = Except.ok (p, l)) :
    (⟨p, l, rendered S f.value⟩ : fieldSpec) ∈ declaredSpecs S fields := by
  unfold declaredSpecs
  rw [List.mem_filterMap]
  exact ⟨f, hf, by simp [htag]⟩

theorem position_le_of_index_lt (l : List fieldSpec) (hs : l.Pairwise posLE) (i j : Nat)
    (a b : fieldSpec) (hi : l[i]? = some a) (hj : l[j]? = some b) (hij : i < j) :
    a.position ≤ b.position := by
  obtain ⟨hil, hia⟩ := List.getElem?_eq_some_iff.mp hi
  obtain ⟨hjl, hjb⟩ := List.getElem?_eq_some_iff.mp hj
  have h := List.pairwise_iff_getElem.mp hs i j hil hjl hij
  rw [hia, hjb] at h
  exact h

/-- C4, refuted: the first three fields of `tiedFields` share position 5 and are declared in the
order `a`, `b`, `c`; with the sort that `sort.Sort` runs since Go 1.19 on these 13 fields the
line has them in the order `c`, `b`, `a`, while a stable sort gives `a`, `b`, `c`. On the way,
`choosePivot` picks index 6, and `partition` leaves the values in the order `d g c b e f a h i j
k l m` with the pivot at index 1, after which the two sides are insertion sorted. -/
theorem Marshal_ties_reordered :
    Marshal pdqSorter (some (.struct tiedFields)) =
      Except.ok "d||g||j||c||b||a||e||f||h||i||k||l||m".toList ∧
    Marshal stableSorter (some (.struct tiedFields)) =
      Except.ok "d||g||j||a||b||c||e||f||h||i||k||l||m".toList ∧
    choosePivot (declaredSpecs pdqSorter tiedFields) 0 13 = (6, sortedHint.increasingHint) ∧
    partialInsertionSort (declaredSpecs pdqSorter tiedFields) 0 13 = false ∧
    (partition (declaredSpecs pdqSorter tiedFields) 0 13 6).2 = (1, false) ∧
    ((partition (declaredSpecs pdqSorter tiedFields) 0 13 6).1.map (·.value)).flatten =
      "dgcbefahijklm".toList ∧
    insertionSort ((partition (declaredSpecs pdqSorter tiedFields) 0 13 6).1.take 1) ++
      ((partition (declaredSpecs pdqSorter tiedFields) 0 13 6).1.drop 1).take 1 ++
      insertionSort ((partition (declaredSpecs pdqSorter tiedFields) 0 13 6).1.drop 2) =
        pdqSort (declaredSpecs pdqSorter tiedFields) := by
  decide

/-- C4, amended: for every record that encodes to a line, the line is the join of the segments
of the emitted fields, which are the declared fields as `sort.Sort` leaves them: a permutation
ordered by non-decreasing position in which, for every position, the fields of that position
are a permutation of the declared fields of that position (all of them appear, in an order the
sort does not fix). -/
theorem Marshal_ties_kept (S : Sorter) (fields : List StructField) (line : Bytes)
    (hok : Marshal S (some (.struct fields)) = Except.ok line) :
    ∃ emitted : List fieldSpec,
      emitted = S.sort (declaredSpecs S fields) ∧
      line = joinSegments (emitted.map segment) ∧
      emitted.Perm (declaredSpecs S fields) ∧
      emitted.Pairwise posLE ∧
      ∀ p : Int, (emitted.filter (fun s => s.position = p)).Perm
        ((declaredSpecs S fields).filter (fun s => s.position = p)) := by
  rw [Marshal_struct, structEncoder_ok_iff] at hok
  exact ⟨S.sort (declaredSpecs S fields), rfl, hok.2.2, S.perm _, sorted_posLE S _,
    fun p => (S.perm _).filter _⟩

/-- C4 amended, at `tiedFields` with the sort of Go 1.19. -/
theorem Marshal_ties_kept_witness :
    Marshal pdqSorter (some (.struct tiedFields)) =
      Except.ok "d||g||j||c||b||a||e||f||h||i||k||l||m".toList ∧
    ∃ emitted : List fieldSpec,
      emitted = pdqSorter.sort (declaredSpecs pdqSorter tiedFields) ∧
      "d||g||j||c||b||a||e||f||h||i||k||l||m".toList = joinSegments (emitted.map segment) ∧
      emitted.Perm (declaredSpecs pdqSorter tiedFields) ∧
      emitted.Pairwise posLE ∧
      ∀ p : Int, (emitted.filter (fun s => s.position = p)).Perm
        ((declaredSpecs pdqSorter tiedFields).filter (fun s => s.position = p)) :=
  ⟨by decide, Marshal_ties_kept pdqSorter tiedFields _ (by decide)⟩

/-- C5: for every record that encodes successfully, the fields whose metadata string is absent
or fails `parseTag` contribute nothing: the record with those fields deleted encodes to the same
line, and the line has exactly one segment per validly tagged field. -/
theorem Marshal_untagged_deleted (S : Sorter) (fields : List StructField) (line : Bytes)
    (hok : Marshal S (some (.struct fields)) = Except.ok line) :
    Marshal S (some (.struct (fields.filter validlyTagged))) = Except.ok line ∧
    ∃ segs : List Bytes, line = joinSegments segs ∧
      segs.length = (fields.filter validlyTagged).length := by
  rw [Marshal_struct] at hok ⊢
  rw [structEncoder_filter]
  refine ⟨hok, ?_⟩
  rw [structEncoder_ok_iff] at hok
  refine ⟨(S.sort (declaredSpecs S fields)).map segment, hok.2.2, ?_⟩
  rw [List.length_map, (S.perm _).length_eq, ← declaredSpecs_filter,
    declaredSpecs_length_of_all S _ (fun f hf => (List.mem_filter.mp hf).2)]

/-- C5, at a record with an untagged field and a field whose tag has three parts. -/
theorem Marshal_untagged_deleted_witness :
    Marshal stableSorter (some (.struct partlyTaggedFields)) = Except.ok "42||sec".toList ∧
    Marshal stableSorter (some (.struct (partlyTaggedFields.filter validlyTagged))) =
      Except.ok "42||sec".toList ∧
    ∃ segs : List Bytes, "42||sec".toList = joinSegments segs ∧
      segs.length = (partlyTaggedFields.filter validlyTagged).length :=
  ⟨by decide, Marshal_untagged_deleted stableSorter partlyTaggedFields _ (by decide)⟩

/-- C6, refuted: the tags `1:-5` and `-1:5` parse; the record with the length -5 fails to encode
with the recovered slice-bounds panic, and the field with the position -1 is in the line, ahead
of the field of position 1. -/
theorem negative_metadata_accepted :
    parseTag "1:-5".toList = Except.ok (1, -5) ∧
    Marshal stableSorter (some (.struct negLengthFields)) =
      Except.error (Error.encodePanic (-5)) ∧
    parseTag "-1:5".toList = Except.ok (-1, 5) ∧
    Marshal stableSorter (some (.struct negPositionFields)) = Except.ok "neg||abc".toList := by
  decide

/-- C6, amended: a field whose tag parses to a negative length makes the record encode fail with
an error, and a field whose tag parses to a negative position is not excluded: whenever the
record encodes to a line, the line is the join of the segments of the emitted fields, which are
the declared fields ordered by position, and the field is emitted at an index ahead of every
field of non-negative position. -/
theorem Marshal_negative_metadata (S : Sorter) (fields : List StructField) (f : StructField)
    (p l : Int) (hf : f ∈ fields) (htag : parseTag f.tag = Except.ok (p, l)) :
    (l < 0 → ∃ e, Marshal S (some (.struct fields)) = Except.error e) ∧
    (p < 0 → ∀ line, Marshal S (some (.struct fields)) = Except.ok line →
      ∃ emitted : List fieldSpec,
        emitted = S.sort (declaredSpecs S fields) ∧
        line = joinSegments (emitted.map segment) ∧
        emitted.Perm (declaredSpecs S fields) ∧
        emitted.Pairwise posLE ∧
        ∃ i : Nat, emitted[i]? = some (⟨p, l, rendered S f.value⟩ : fieldSpec) ∧
          ∀ (j : Nat) (s : fieldSpec), emitted[j]? = some s → 0 ≤ s.position → i < j) := by
  have hmem := mem_declaredSpecs S fields f p l hf htag
  constructor
  · intro hl
    rw [Marshal_struct, structEncoder_eq]
    cases firstRenderError S fields with
    | some e => exact ⟨e, rfl⟩
    | none => exact encodeSpecs_neg S _ ⟨_, hmem, hl⟩
  · intro hp line hok
    rw [Marshal_struct, structEncoder_ok_iff] at hok
    have hsorted := sorted_posLE S (declaredSpecs S fields)
    obtain ⟨i, hi⟩ := List.mem_iff_getElem?.mp ((S.perm _).mem_iff.mpr hmem)
    refine ⟨S.sort (declaredSpecs S fields), rfl, hok.2.2, S.perm _, hsorted, i, hi, ?_⟩
    intro j s hj hs
    by_contra hij
    rcases Nat.lt_or_ge j i with hlt | hge
    · have hle := position_le_of_index_lt _ hsorted j i s _ hj hi hlt
      have hle2 : s.position ≤ p := hle
      omega
    · have hji : j = i := by omega
      rw [hji, hi] at hj
      have hsp : s.position = p := by
        have hs2 := Option.some.inj hj
        rw [← hs2]
      omega

/-- C6 amended, at the field tagged `1:-5` of `negLengthFields` and at the field tagged `-1:5`
of `negPositionFields`, which is declared last and emitted first. -/
theorem Marshal_negative_metadata_witness :
    (∃ e, Marshal stableSorter (some (.struct negLengthFields)) = Except.error e) ∧
    (∃ emitted : List fieldSpec,
      emitted = stableSorter.sort (declaredSpecs stableSorter negPositionFields) ∧
      "neg||abc".toList = joinSegments (emitted.map segment) ∧
      emitted.Perm (declaredSpecs stableSorter negPositionFields) ∧
      emitted.Pairwise posLE ∧
      ∃ i : Nat, emitted[i]? = some (⟨-1, 5, "neg".toList⟩ : fieldSpec) ∧
        ∀ (j : Nat) (s : fieldSpec), emitted[j]? = some s → 0 ≤ s.position → i < j) :=
  ⟨(Marshal_negative_metadata stableSorter negLengthFields
      (.mk "1:-5".toList (.string "abc".toList)) 1 (-5) (List.Mem.head _) (by decide)).1 (by decide),
   (Marshal_negative_metadata stableSorter negPositionFields
      (.mk "-1:5".toList (.string "neg".toList)) (-1) 5 (List.Mem.tail _ (List.Mem.head _))
      (by decide)).2 (by decide)
      "neg||abc".toList (by decide)⟩

theorem Atoi_nil : Atoi [] = Except.error NumError.malformed := by
  simp [Atoi]

theorem Atoi_minus (r : Bytes) : Atoi ('-' :: r) =
    if r = [] then Except.error NumError.malformed
    else match parseDigits r 0 with
      | none => Except.error NumError.malformed
      | some un =>
        if un > 2 ^ (intSize - 1) then Except.error NumError.outOfRange
        else Except.ok (-(un : Int)) := by
  simp [Atoi]

theorem Atoi_plus (r : Bytes) : Atoi ('+' :: r) =
    if r = [] then Except.error NumError.malformed
    else match parseDigits r 0 with
      | none => Except.error NumError.malformed
      | some un =>
        if un ≥ 2 ^ (intSize - 1) then Except.error NumError.outOfRange
        else Except.ok (un : Int) := by
  simp [Atoi]

theorem Atoi_plain (c : Char) (r : Bytes) (h1 : c ≠ '-') (h2 : c ≠ '+') : Atoi (c :: r) =
    match parseDigits (c :: r) 0 with
      | none => Except.error NumError.malformed
      | some un =>
        if un ≥ 2 ^ (intSize - 1) then Except.error NumError.outOfRange
        else Except.ok (un : Int) := by
  unfold Atoi
  split
  · rename_i heq; simp at heq; exact absurd heq.1 h1
  · rename_i heq; simp at heq; exact absurd heq.1 h2
  · simp [h1]

/-! ## `strings.Split` on one byte -/

theorem Split_ne_nil (s : Bytes) (sep : Char) : Split s sep ≠ [] := by
  cases s with
  | nil => simp [Split]
  | cons c rest =>
    unfold Split
    split
    · simp
    · split <;> simp

theorem Split_of_not_mem (s : Bytes) (sep : Char) (h : sep ∉ s) : Split s sep = [s] := by
  induction s with
  | nil => simp [Split]
  | cons c rest ih =>
    have hc : c ≠ sep := fun hc => h (hc ▸ List.mem_cons_self _ _)
    have hrest : sep ∉ rest := fun hr => h (List.mem_cons_of_mem _ hr)
    simp [Split, hc, ih hrest]

theorem Split_append (a b : Bytes) (sep : Char) (h : sep ∉ a) :
    Split (a ++ sep :: b) sep = a :: Split b sep := by
  induction a with
  | nil => simp [Split]
  | cons c rest ih =>
    have hc : c ≠ sep := fun hc => h (hc ▸ List.mem_cons_self _ _)
    have hrest : sep ∉ rest := fun hr => h (List.mem_cons_of_mem _ hr)
    simp [Split, hc, ih hrest]

theorem Split_eq_cons (s : Bytes) (sep : Char) :
    ∀ (p : Bytes) (ps : List Bytes), Split s sep = p :: ps →
      sep ∉ p ∧ ((ps = [] ∧ s = p) ∨
        ∃ rest, s = p ++ sep :: rest ∧ Split rest sep = ps) := by
  induction s with
  | nil =>
    intro p ps h
    simp [Split] at h
    obtain ⟨rfl, rfl⟩ := h
    simp
  | cons c rest ih =>
    intro p ps h
    unfold Split at h
    by_cases hc : c = sep
    · simp only [hc, if_true, List.cons.injEq] at h
      obtain ⟨rfl, rfl⟩ := h
      exact ⟨by simp, Or.inr ⟨rest, by simp [hc], rfl⟩⟩
    · simp only [hc, if_false] at h
      cases hs : Split rest sep with
      | nil => exact absurd hs (Split_ne_nil rest sep)
      | cons q qs =>
        rw [hs] at h
        simp only [List.cons.injEq] at h
        obtain ⟨rfl, rfl⟩ := h
        obtain ⟨hq, hcase⟩ := ih q qs hs
        refine ⟨?_, ?_⟩
        · intro hmem
          rcases List.mem_cons.mp hmem with h1 | h1
          · exact hc h1.symm
          · exact hq h1
        · rcases hcase with ⟨h1, h2⟩ | ⟨r, h1, h2⟩
          · exact Or.inl ⟨h1, by rw [h2]⟩
          · exact Or.inr ⟨r, by rw [h1]; rfl, h2⟩

theorem Split_eq_pair_iff (tag a b : Bytes) (sep : Char) :
    Split tag sep = [a, b] ↔ tag = a ++ sep :: b ∧ sep ∉ a ∧ sep ∉ b := by
  constructor
  · intro h
    obtain ⟨ha, hcase⟩ := Split_eq_cons tag sep a [b] h
    rcases hcase with ⟨h1, _⟩ | ⟨rest, h1, h2⟩
    · cases h1
    · obtain ⟨hb, hcase2⟩ := Split_eq_cons rest sep b [] h2
      rcases hcase2 with ⟨_, h3⟩ | ⟨r, _, h4⟩
      · exact ⟨by rw [h1, h3], ha, hb⟩
      · exact absurd h4 (Split_ne_nil r sep)
  · rintro ⟨rfl, ha, hb⟩
    rw [Split_append a b sep ha, Split_of_not_mem b sep hb]

/-! ## `strconv.Atoi` -/

theorem parseDigits_of_digits (ds : Bytes) :
    ∀ n : Nat, (∀ c ∈ ds, isDigitByte c) →
      parseDigits ds n = some (ds.foldl (fun n c => n * 10 + (c.toNat - 48)) n) := by
  induction ds with
  | nil => intro n _; rfl
  | cons c rest ih =>
    intro n h
    have hc : 48 ≤ c.toNat ∧ c.toNat ≤ 57 := h c (List.mem_cons_self _ _)
    simp only [parseDigits, hc, and_self, if_true, List.foldl_cons]
    exact ih _ (fun d hd => h d (List.mem_cons_of_mem _ hd))

theorem parseDigits_of_not_digits (ds : Bytes) :
    ∀ n : Nat, (¬ ∀ c ∈ ds, isDigitByte c) → parseDigits ds n = none := by
  induction ds with
  | nil => intro n h; exact absurd (by simp) h
  | cons c rest ih =>
    intro n h
    by_cases hc : 48 ≤ c.toNat ∧ c.toNat ≤ 57
    · simp only [parseDigits, hc, and_self, if_true]
      apply ih
      intro hrest
      apply h
      intro d hd
      rcases List.mem_cons.mp hd with rfl | hd
      · exact hc
      · exact hrest d hd
    · simp only [parseDigits, hc, if_false]

theorem parseDigits_decimal (ds : Bytes) (h : IsDecimal ds) :
    parseDigits ds 0 = some (decimalValue ds) :=
  parseDigits_of_digits ds 0 h.2

theorem parseDigits_not_decimal (ds : Bytes) (hne : ds ≠ []) (h : ¬ IsDecimal ds) :
    parseDigits ds 0 = none :=
  parseDigits_of_not_digits ds 0 (fun hall => h ⟨hne, hall⟩)

theorem IsSignedDecimal_minus (r : Bytes) :
    IsSignedDecimal ('-' :: r) ↔ IsDecimal r ∧ decimalValue r ≤ 2 ^ (intSize - 1) := by
  simp [IsSignedDecimal]

theorem IsSignedDecimal_plus (r : Bytes) :
    IsSignedDecimal ('+' :: r) ↔ IsDecimal r ∧ decimalValue r < 2 ^ (intSize - 1) := by
  simp [IsSignedDecimal]

theorem IsSignedDecimal_plain (c : Char) (r : Bytes) (h1 : c ≠ '-') (h2 : c ≠ '+') :
    IsSignedDecimal (c :: r) ↔
      IsDecimal (c :: r) ∧ decimalValue (c :: r) < 2 ^ (intSize - 1) := by
  unfold IsSignedDecimal
  split
  · rename_i heq; simp at heq; exact absurd heq.1 h1
  · rename_i heq; simp at heq; exact absurd heq.1 h2
  · rfl

theorem signedValue_plain (c : Char) (r : Bytes) (h1 : c ≠ '-') (h2 : c ≠ '+') :
    signedValue (c :: r) = (decimalValue (c :: r) : Int) := by
  unfold signedValue
  split
  · rename_i heq; simp at heq; exact absurd heq.1 h1
  · rename_i heq; simp at heq; exact absurd heq.1 h2
  · rfl

theorem Atoi_of_signed (s : Bytes) (h : IsSignedDecimal s) :
    Atoi s = Except.ok (signedValue s) := by
  cases s with
  | nil => simp [IsSignedDecimal, IsDecimal] at h
  | cons c r =>
    by_cases h1 : c = '-'
    · subst h1
      rw [IsSignedDecimal_minus] at h
      have hle : ¬ decimalValue r > 2 ^ (intSize - 1) := by omega
      simp [Atoi_minus, h.1.1, parseDigits_decimal r h.1, hle, signedValue]
    · by_cases h2 : c = '+'
      · subst h2
        rw [IsSignedDecimal_plus] at h
        have hlt : ¬ decimalValue r ≥ 2 ^ (intSize - 1) := by omega
        simp only [Atoi_plus, h.1.1, parseDigits_decimal r h.1, hlt, if_false, signedValue]
      · rw [IsSignedDecimal_plain c r h1 h2] at h
        have hlt : ¬ decimalValue (c :: r) ≥ 2 ^ (intSize - 1) := by omega
        simp only [Atoi_plain c r h1 h2, parseDigits_decimal _ h.1, hlt, if_false,
          signedValue_plain c r h1 h2]

theorem Atoi_of_not_signed (s : Bytes) (h : ¬ IsSignedDecimal s) :
    ∃ e, Atoi s = Except.error e := by
  cases s with
  | nil => exact ⟨_, Atoi_nil⟩
  | cons c r =>
    by_cases h1 : c = '-'
    · subst h1
      rw [IsSignedDecimal_minus] at h
      rw [Atoi_minus]
      by_cases hr : r = []
      · exact ⟨NumError.malformed, by simp [hr]⟩
      · by_cases hd : IsDecimal r
        · have hgt : decimalValue r > 2 ^ (intSize - 1) := by
            by_contra hle; exact h ⟨hd, by omega⟩
          exact ⟨NumError.outOfRange, by simp [hr, parseDigits_decimal r hd, hgt]⟩
        · exact ⟨NumError.malformed, by simp [hr, parseDigits_not_decimal r hr hd]⟩
    · by_cases h2 : c = '+'
      · subst h2
        rw [IsSignedDecimal_plus] at h
        rw [Atoi_plus]
        by_cases hr : r = []
        · exact ⟨NumError.malformed, by simp [hr]⟩
        · by_cases hd : IsDecimal r
          · have hge : decimalValue r ≥ 2 ^ (intSize - 1) := by
              by_contra hlt; exact h ⟨hd, by omega⟩
            exact ⟨NumError.outOfRange, by simp [hr, parseDigits_decimal r hd, hge]⟩
          · exact ⟨NumError.malformed, by simp [hr, parseDigits_not_decimal r hr hd]⟩
      · rw [IsSignedDecimal_plain c r h1 h2] at h
        rw [Atoi_plain c r h1 h2]
        by_cases hd : IsDecimal (c :: r)
        · have hge : decimalValue (c :: r) ≥ 2 ^ (intSize - 1) := by
            by_contra hlt; exact h ⟨hd, by omega⟩
          exact ⟨NumError.outOfRange, by simp [parseDigits_decimal _ hd, hge]⟩
        · exact ⟨NumError.malformed, by
            simp [parseDigits_not_decimal (c :: r) (by simp) hd]⟩

/-! ## Decimal digits of a natural number -/

theorem digitChar_toNat (k : Nat) (hk : k < 10) : (Nat.digitChar k).toNat = k + 48 := by
  interval_cases k <;> rfl

theorem isDigitByte_digitChar (k : Nat) (hk : k < 10) : isDigitByte (Nat.digitChar k) := by
  unfold isDigitByte
  rw [digitChar_toNat k hk]
  omega

theorem toDigitsCore_digits (fuel : Nat) :
    ∀ (n : Nat) (ds : Bytes), (∀ c ∈ ds, isDigitByte c) →
      ∀ c ∈ Nat.toDigitsCore 10 fuel n ds, isDigitByte c := by
  induction fuel with
  | zero => intro n ds h; simpa [Nat.toDigitsCore] using h
  | succ fuel ih =>
    intro n ds h
    have hd : ∀ c ∈ Nat.digitChar (n % 10) :: ds, isDigitByte c := by
      intro c hc
      rcases List.mem_cons.mp hc with rfl | hc
      · exact isDigitByte_digitChar _ (Nat.mod_lt _ (by decide))
      · exact h c hc
    simp only [Nat.toDigitsCore]
    split
    · exact hd
    · exact ih _ _ hd

theorem toDigitsCore_ne_nil (fuel : Nat) :
    ∀ (n : Nat) (ds : Bytes), ds ≠ [] → Nat.toDigitsCore 10 fuel n ds ≠ [] := by
  induction fuel with
  | zero => intro n ds h; simpa [Nat.toDigitsCore] using h
  | succ fuel ih =>
    intro n ds _
    simp only [Nat.toDigitsCore]
    split
    · simp
    · exact ih _ _ (by simp)

theorem toDigitsCore_value (fuel : Nat) :
    ∀ (n : Nat) (ds : Bytes), n < fuel →
      (Nat.toDigitsCore 10 fuel n ds).foldl (fun n c => n * 10 + (c.toNat - 48)) 0 =
        ds.foldl (fun n c => n * 10 + (c.toNat - 48)) n := by
  induction fuel with
  | zero => intro n ds h; omega
  | succ fuel ih =>
    intro n ds hn
    have hdig : (Nat.digitChar (n % 10)).toNat - 48 = n % 10 := by
      rw [digitChar_toNat _ (Nat.mod_lt _ (by decide))]; omega
    simp only [Nat.toDigitsCore]
    split
    · rename_i h0
      have hn10 : n % 10 = n := by omega
      rw [List.foldl_cons, Nat.zero_mul, Nat.zero_add, hdig, hn10]
    · rename_i h0
      have hlt : n / 10 < fuel := by omega
      rw [ih _ _ hlt]
      have hsum : n / 10 * 10 + n % 10 = n := by omega
      rw [List.foldl_cons, hdig, hsum]

theorem toDigits_isDecimal (n : Nat) : IsDecimal (Nat.toDigits 10 n) := by
  refine ⟨?_, toDigitsCore_digits _ _ _ (by simp)⟩
  unfold Nat.toDigits
  simp only [Nat.toDigitsCore]
  split
  · simp
  · exact toDigitsCore_ne_nil _ _ _ (by simp)

theorem decimalValue_toDigits (n : Nat) : decimalValue (Nat.toDigits 10 n) = n := by
  unfold decimalValue Nat.toDigits
  rw [toDigitsCore_value _ _ _ (Nat.lt_succ_self n)]
  rfl

theorem IsSignedDecimal_of_decimal (ds : Bytes) (hd : IsDecimal ds)
    (hr : decimalValue ds < 2 ^ (intSize - 1)) :
    IsSignedDecimal ds ∧ signedValue ds = (decimalValue ds : Int) := by
  cases ds with
  | nil => exact absurd rfl hd.1
  | cons c r =>
    have hc : isDigitByte c := hd.2 c (List.mem_cons_self _ _)
    have h1 : c ≠ '-' := by
      rintro rfl; unfold isDigitByte at hc; revert hc; decide
    have h2 : c ≠ '+' := by
      rintro rfl; unfold isDigitByte at hc; revert hc; decide
    exact ⟨(IsSignedDecimal_plain c r h1 h2).mpr ⟨hd, hr⟩, signedValue_plain c r h1 h2⟩

theorem colon_not_mem_of_decimal (ds : Bytes) (hd : IsDecimal ds) : ':' ∉ ds := by
  intro h
  have hc := hd.2 _ h
  unfold isDigitByte at hc
  revert hc
  decide

theorem parseTag_of_pair (a b : Bytes) (ha : ':' ∉ a) (hb : ':' ∉ b) :
    parseTag (a ++ ':' :: b) =
      match Atoi a with
      | .error _ => Except.error Error.positionNotNumeric
      | .ok pos =>
        match Atoi b with
        | .error _ => Except.error Error.lengthNotNumeric
        | .ok length => Except.ok (pos, length) := by
  unfold parseTag
  rw [(Split_eq_pair_iff _ a b ':').mpr ⟨rfl, ha, hb⟩]

/-! ## The claims on `parseTag` -/

/-- C7, refuted: `parseTag` accepts signed numbers; `-1:5`, `+1:5`, `1:-5` and `+1:+5` parse
without error. -/
theorem parseTag_signed_accepted :
    parseTag "-1:5".toList = Except.ok (-1, 5) ∧
    parseTag "+1:5".toList = Except.ok (1, 5) ∧
    parseTag "1:-5".toList = Except.ok (1, -5) ∧
    parseTag "+1:+5".toList = Except.ok (1, 5) := by
  decide

/-- C7, amended: `parseTag` fails with `missFormat` when the string does not split on `:` into
exactly two parts, with `positionNotNumeric` when the first part is not a base-10 integer with
an optional sign that fits the `int`, with `lengthNotNumeric` when the first part is one and the
second is not, and it returns the two values when both are (signed forms included). -/
theorem parseTag_cases (tag : Bytes) :
    ((¬ ∃ a b, tag = a ++ ':' :: b ∧ ':' ∉ a ∧ ':' ∉ b) →
      parseTag tag = Except.error Error.missFormat) ∧
    (∀ a b, tag = a ++ ':' :: b → ':' ∉ a → ':' ∉ b →
      (¬ IsSignedDecimal a → parseTag tag = Except.error Error.positionNotNumeric) ∧
      (IsSignedDecimal a → ¬ IsSignedDecimal b →
        parseTag tag = Except.error Error.lengthNotNumeric) ∧
      (IsSignedDecimal a → IsSignedDecimal b →
        parseTag tag = Except.ok (signedValue a, signedValue b))) := by
  constructor
  · intro h
    unfold parseTag
    split
    · rename_i p0 p1 heq
      exact absurd ⟨p0, p1, (Split_eq_pair_iff tag p0 p1 ':').mp heq⟩ h
    · rfl
  · rintro a b rfl ha hb
    rw [parseTag_of_pair a b ha hb]
    refine ⟨?_, ?_, ?_⟩
    · intro hna
      obtain ⟨e, he⟩ := Atoi_of_not_signed a hna
      simp [he]
    · intro hsa hnb
      obtain ⟨e, he⟩ := Atoi_of_not_signed b hnb
      simp [Atoi_of_signed a hsa, he]
    · intro hsa hsb
      simp [Atoi_of_signed a hsa, Atoi_of_signed b hsb]

/-- C8: for all natural numbers `p` and `l` that fit the `int`, `parseTag` applied to the decimal
form of `p`, a colon and the decimal form of `l` succeeds and returns exactly `(p, l)`. -/
theorem parseTag_decimal (p l : Nat) (hp : p < 2 ^ (intSize - 1)) (hl : l < 2 ^ (intSize - 1)) :
    parseTag (Itoa (p : Int) ++ ':' :: Itoa (l : Int)) = Except.ok ((p : Int), (l : Int)) := by
  have hIp : Itoa (p : Int) = Nat.toDigits 10 p := by simp [Itoa]
  have hIl : Itoa (l : Int) = Nat.toDigits 10 l := by simp [Itoa]
  rw [hIp, hIl]
  have dp := toDigits_isDecimal p
  have dl := toDigits_isDecimal l
  have sp := IsSignedDecimal_of_decimal _ dp (by rw [decimalValue_toDigits]; exact hp)
  have sl := IsSignedDecimal_of_decimal _ dl (by rw [decimalValue_toDigits]; exact hl)
  rw [parseTag_of_pair _ _ (colon_not_mem_of_decimal _ dp) (colon_not_mem_of_decimal _ dl),
    Atoi_of_signed _ sp.1, Atoi_of_signed _ sl.1]
  simp only [sp.2, sl.2, decimalValue_toDigits]

/-- C8, at `p = 6` and `l = 10`: `parseTag("6:10") = (6, 10)`. -/
theorem parseTag_decimal_witness :
    6 < 2 ^ (intSize - 1) ∧ 10 < 2 ^ (intSize - 1) ∧
    Itoa 6 ++ ':' :: Itoa 10 = "6:10".toList ∧
    parseTag (Itoa ((6 : Nat) : Int) ++ ':' :: Itoa ((10 : Nat) : Int)) =
      Except.ok (((6 : Nat) : Int), ((10 : Nat) : Int)) :=
  ⟨by decide, by decide, by decide, parseTag_decimal 6 10 (by decide) (by decide)⟩

/-! ## The claims on render failures and nil pointers -/

theorem firstRenderError_append (S : Sorter) (pre post : List StructField) :
    firstRenderError S (pre ++ post) =
      (firstRenderError S pre).or (firstRenderError S post) := by
  unfold firstRenderError
  exact List.findSome?_append

theorem firstRenderError_cons_unknown (S : Sorter) (f : StructField) (post : List StructField)
    (typeName : String) (htag : validlyTagged f = true)
    (htype : newValueEncoder S f.value = unknownTypeEncoder typeName) :
    firstRenderError S (f :: post) = some (Error.MarshalInvalidTypeError typeName) := by
  unfold validlyTagged at htag
  unfold firstRenderError
  cases hp : parseTag f.tag with
  | error e => simp [hp] at htag
  | ok pl => simp [List.findSome?_cons, hp, htype, unknownTypeEncoder]

/-- C9, refuted: in `failingFirstFields` the boolean field is validly tagged, yet `Marshal`
returns the error of the custom renderer declared before it, not a `MarshalInvalidTypeError`. -/
theorem Marshal_unsupported_not_first :
    validlyTagged (.mk "2:5".toList (.other "bool")) = true ∧
    Marshal stableSorter (some (.struct failingFirstFields)) =
      Except.error (Error.marshalText "bad stamp") ∧
    Marshal stableSorter (some (.struct failingFirstFields)) ≠
      Except.error (Error.MarshalInvalidTypeError "bool") := by
  decide

/-- C9, amended: for every record that has a validly tagged field whose type is dispatched to
`unknownTypeEncoder`, `Marshal` returns no bytes and an error, whatever the other fields are;
the error is that of the first validly tagged field, in declaration order, whose rendering
fails, so it is the `MarshalInvalidTypeError` with the name of the unsupported type whenever the
validly tagged fields declared before that field render without error. -/
theorem Marshal_unsupported_field (S : Sorter) (pre post : List StructField) (f : StructField)
    (typeName : String) (htag : validlyTagged f = true)
    (htype : newValueEncoder S f.value = unknownTypeEncoder typeName) :
    (∃ e, Marshal S (some (.struct (pre ++ f :: post))) = Except.error e ∧
      firstRenderError S (pre ++ f :: post) = some e) ∧
    ((∀ g ∈ pre, validlyTagged g = true → renders S g.value = true) →
      Marshal S (some (.struct (pre ++ f :: post))) =
        Except.error (Error.MarshalInvalidTypeError typeName)) := by
  have hf := firstRenderError_cons_unknown S f post typeName htag htype
  have happ := firstRenderError_append S pre (f :: post)
  rw [hf] at happ
  rw [Marshal_struct, structEncoder_eq]
  constructor
  · cases hpre : firstRenderError S pre with
    | none =>
      rw [hpre] at happ
      simp only [Option.or] at happ
      rw [happ]
      exact ⟨_, rfl, rfl⟩
    | some e =>
      rw [hpre] at happ
      simp only [Option.or] at happ
      rw [happ]
      exact ⟨_, rfl, rfl⟩
  · intro hpre
    rw [(firstRenderError_eq_none S pre).mpr hpre] at happ
    simp only [Option.or] at happ
    rw [happ]

/-- C9 amended, at the boolean field of `boolFields`, whose other fields are valid. -/
theorem Marshal_unsupported_field_witness :
    validlyTagged (.mk "2:5".toList (.other "bool")) = true ∧
    (∃ e, Marshal stableSorter (some (.struct boolFields)) = Except.error e ∧
      firstRenderError stableSorter boolFields = some e) ∧
    Marshal stableSorter (some (.struct boolFields)) =
      Except.error (Error.MarshalInvalidTypeError "bool") :=
  ⟨by decide,
   (Marshal_unsupported_field stableSorter [.mk "1:5".toList (.string "abc".toList)]
      [.mk "3:5".toList (.string "xyz".toList)] (.mk "2:5".toList (.other "bool")) "bool"
      (by decide) (by decide)).1,
   (Marshal_unsupported_field stableSorter [.mk "1:5".toList (.string "abc".toList)]
      [.mk "3:5".toList (.string "xyz".toList)] (.mk "2:5".toList (.other "bool")) "bool"
      (by decide) (by decide)).2 (by decide)⟩

/-- C10, refuted: the second field of `nilCustomFields` and of `nilFailingFields` is a validly
tagged nil pointer whose type has a custom renderer; it is rendered by `MarshalText`, not as
empty bytes: in the first record its segment is `<nil>`, in the second the record encode fails
with the error `MarshalText` returns. -/
theorem Marshal_nil_pointer_custom :
    isNilPointer (.textMarshaler "Int" (.ok "<nil>".toList) (.ptr none)) = true ∧
    validlyTagged
      (.mk "2:5".toList (.textMarshaler "Int" (.ok "<nil>".toList) (.ptr none))) = true ∧
    Marshal stableSorter (some (.struct nilCustomFields)) =
      Except.ok "abc||<nil>||xyz".toList ∧
    isNilPointer (.textMarshaler "Code" (.error (.marshalText "second")) (.ptr none)) = true ∧
    Marshal stableSorter (some (.struct nilFailingFields)) =
      Except.error (Error.marshalText "second") := by
  decide

/-- C10, amended: for every record with a validly tagged field of pointer type that holds nil
and whose type has no custom renderer, the field renders as empty bytes with no error and keeps
its slot: whenever the record encodes to a line, the line is the join of one segment per validly
tagged field, the emitted fields being the declared ones ordered by position, and the nil field
is emitted at an index where the segment is empty, after the fields of lower position and before
those of higher position. A nil pointer whose type has a custom renderer is rendered by it. -/
theorem Marshal_nil_pointer_slot (S : Sorter) (fields : List StructField) (f : StructField)
    (p l : Int) (line : Bytes) (hf : f ∈ fields) (htag : parseTag f.tag = Except.ok (p, l))
    (hnil : f.value = .ptr none)
    (hok : Marshal S (some (.struct fields)) = Except.ok line) :
    isNilPointer f.value = true ∧
    newValueEncoder S f.value = Except.ok [] ∧
    (∀ typeName text, newValueEncoder S (.textMarshaler typeName text (.ptr none)) = text) ∧
    ∃ emitted : List fieldSpec,
      emitted = S.sort (declaredSpecs S fields) ∧
      line = joinSegments (emitted.map segment) ∧
      emitted.Perm (declaredSpecs S fields) ∧
      (emitted.map segment).length = (fields.filter validlyTagged).length ∧
      emitted.Pairwise posLE ∧
      ∃ i : Nat, emitted[i]? = some (⟨p, l, []⟩ : fieldSpec) ∧
        (emitted.map segment)[i]? = some [] ∧
        ∀ (j : Nat) (s : fieldSpec), emitted[j]? = some s →
          (j < i → s.position ≤ p) ∧ (i < j → p ≤ s.position) := by
  have hrender : newValueEncoder S f.value = Except.ok [] := by
    rw [hnil]; simp [newValueEncoder, ptrInterfaceEncoder, nilEncoder]
  have hmem := mem_declaredSpecs S fields f p l hf htag
  have hr : rendered S f.value = [] := by simp [rendered, hrender]
  rw [hr] at hmem
  rw [Marshal_struct, structEncoder_ok_iff] at hok
  have hsorted := sorted_posLE S (declaredSpecs S fields)
  have hmem2 : (⟨p, l, []⟩ : fieldSpec) ∈ S.sort (declaredSpecs S fields) :=
    (S.perm _).mem_iff.mpr hmem
  obtain ⟨i, hi⟩ := List.mem_iff_getElem?.mp hmem2
  refine ⟨by rw [hnil]; rfl, hrender, ?_, S.sort (declaredSpecs S fields), rfl, hok.2.2,
    S.perm _, ?_, hsorted, i, hi, ?_, ?_⟩
  · intro typeName text
    simp [newValueEncoder, textMarshalerEncoder]
  · rw [List.length_map, (S.perm _).length_eq, ← declaredSpecs_filter,
      declaredSpecs_length_of_all S _ (fun g hg => (List.mem_filter.mp hg).2)]
  · rw [List.getElem?_map, hi]
    simp [segment, cut]
  · intro j s hj
    constructor
    · intro hlt
      exact position_le_of_index_lt _ hsorted j i s _ hj hi hlt
    · intro hlt
      exact position_le_of_index_lt _ hsorted i j _ s hi hj hlt

/-- C10 amended, at a record whose nil pointer field is declared second of three and has the
position 2: the line is `abc||||xyz`. -/
theorem Marshal_nil_pointer_slot_witness :
    Marshal stableSorter (some (.struct nilPointerFields)) = Except.ok "abc||||xyz".toList ∧
    isNilPointer (StructField.mk "2:4".toList (.ptr none)).value = true ∧
    newValueEncoder stableSorter (StructField.mk "2:4".toList (.ptr none)).value =
      Except.ok [] ∧
    (∀ typeName text,
      newValueEncoder stableSorter (.textMarshaler typeName text (.ptr none)) = text) ∧
    ∃ emitted : List fieldSpec,
      emitted = stableSorter.sort (declaredSpecs stableSorter nilPointerFields) ∧
      "abc||||xyz".toList = joinSegments (emitted.map segment) ∧
      emitted.Perm (declaredSpecs stableSorter nilPointerFields) ∧
      (emitted.map segment).length = (nilPointerFields.filter validlyTagged).length ∧
      emitted.Pairwise posLE ∧
      ∃ i : Nat, emitted[i]? = some (⟨2, 4, []⟩ : fieldSpec) ∧
        (emitted.map segment)[i]? = some [] ∧
        ∀ (j : Nat) (s : fieldSpec), emitted[j]? = some s →
          (j < i → s.position ≤ 2) ∧ (i < j → 2 ≤ s.position) :=
  ⟨by decide,
   Marshal_nil_pointer_slot stableSorter nilPointerFields (.mk "2:4".toList (.ptr none)) 2 4
     "abc||||xyz".toList (List.Mem.tail _ (List.Mem.head _)) (by decide) rfl (by decide)⟩

/-! ## The loop of `writeLines` -/

theorem joinLines_singleton (a : Bytes) : joinLines [a] = a := by
  simp [joinLines, List.intercalate]

theorem joinLines_cons_cons (a b : Bytes) (l : List Bytes) :
    joinLines (a :: b :: l) = a ++ '\n' :: joinLines (b :: l) := by
  simp [joinLines, List.intercalate]

theorem writeLinesLoop_eq (S : Sorter) (n : Nat) (elems : List Value) :
    ∀ (i : Nat) (w : Bytes), i + elems.length = n →
      writeLinesLoop S n i elems w =
        match firstElemError S elems with
        | some e => Except.error e
        | none => Except.ok (w ++ joinLines (elems.map (rendered S))) := by
  induction elems with
  | nil => intro i w _; simp [writeLinesLoop, firstElemError, joinLines, List.intercalate]
  | cons v rest ih =>
    intro i w hn
    cases hv : newValueEncoder S v with
    | error e => simp [writeLinesLoop, writeLine, firstElemError, hv]
    | ok b =>
      have hfirst : firstElemError S (v :: rest) = firstElemError S rest := by
        simp [firstElemError, hv]
      have hr : rendered S v = b := by simp [rendered, hv]
      rw [hfirst]
      simp only [writeLinesLoop, writeLine, hv, List.map_cons, hr]
      cases rest with
      | nil =>
        have hi : i = n - 1 := by simp at hn; omega
        simp [hi, writeLinesLoop, firstElemError, joinLines_singleton]
      | cons r rs =>
        have hi : i ≠ n - 1 := by simp at hn; omega
        have hn2 : i + 1 + (r :: rs).length = n := by simp at hn ⊢; omega
        rw [if_pos hi, ih (i + 1) _ hn2]
        cases firstElemError S (r :: rs) with
        | some e => rfl
        | none => simp [joinLines_cons_cons]

theorem Marshal_slice (S : Sorter) (typeName : String) (elems : List Value) :
    Marshal S (some (.slice typeName elems)) =
      match firstElemError S elems with
      | some e => Except.error e
      | none => Except.ok (joinLines (elems.map (rendered S))) := by
  simp only [Marshal, Encode, indirect, writeLines]
  rw [writeLinesLoop_eq S elems.length elems 0 [] (by simp)]
  simp

theorem renders_struct_iff (S : Sorter) (r : List StructField) :
    renders S (.struct r) = true ↔ ∃ line, Marshal S (some (.struct r)) = Except.ok line := by
  rw [Marshal_struct, ← newValueEncoder_struct]
  unfold renders
  cases newValueEncoder S (.struct r) <;> simp

theorem rendered_struct_of_ok (S : Sorter) (r : List StructField) (line : Bytes)
    (h : Marshal S (some (.struct r)) = Except.ok line) :
    newValueEncoder S (.struct r) = Except.ok line ∧ rendered S (.struct r) = line := by
  rw [Marshal_struct, ← newValueEncoder_struct] at h
  simp [rendered, h]

theorem firstElemError_records_none (S : Sorter) (records : List (List StructField))
    (lines : List Bytes)
    (h : List.Forall₂ (fun r line => Marshal S (some (.struct r)) = Except.ok line)
      records lines) :
    firstElemError S (records.map Value.struct) = none ∧
      (records.map Value.struct).map (rendered S) = lines := by
  induction h with
  | nil => simp [firstElemError]
  | cons hhead _ ih =>
    obtain ⟨h1, h2⟩ := rendered_struct_of_ok S _ _ hhead
    unfold firstElemError at ih ⊢
    simp [List.findSome?_cons, h1, h2, ih.1, ih.2]

theorem count_joinLines (lines : List Bytes) (hne : lines ≠ []) :
    (joinLines lines).count '\n' =
      (lines.map (List.count '\n')).sum + (lines.length - 1) := by
  induction lines with
  | nil => exact absurd rfl hne
  | cons a rest ih =>
    cases rest with
    | nil => simp [joinLines_singleton]
    | cons b l =>
      have h := ih (by simp)
      rw [joinLines_cons_cons, List.count_append, List.count_cons_self, h]
      simp only [List.map_cons, List.sum_cons, List.length_cons]
      omega

theorem firstElemError_append (S : Sorter) (pre post : List Value) :
    firstElemError S (pre ++ post) = (firstElemError S pre).or (firstElemError S post) := by
  unfold firstElemError
  exact List.findSome?_append

theorem firstElemError_eq_none (S : Sorter) (elems : List Value)
    (h : ∀ v ∈ elems, renders S v = true) : firstElemError S elems = none := by
  unfold firstElemError
  rw [List.findSome?_eq_none_iff]
  intro v hv
  have := h v hv
  unfold renders at this
  cases hn : newValueEncoder S v with
  | error e => simp [hn] at this
  | ok b => rfl

/-! ## The claims on sequences -/

/-- C11: for every ordered sequence of records that all encode successfully, `Marshal` of the
sequence returns the records' individual lines, in order, joined by a single newline with none
before the first or after the last line; and the empty sequence yields empty output with no
error. -/
theorem Marshal_sequence_joined (S : Sorter) (typeName : String)
    (records : List (List StructField)) (lines : List Bytes)
    (h : List.Forall₂ (fun r line => Marshal S (some (.struct r)) = Except.ok line)
      records lines) :
    Marshal S (some (.slice typeName (records.map Value.struct))) =
      Except.ok (joinLines lines) ∧
    Marshal S (some (.slice typeName [])) = Except.ok [] := by
  obtain ⟨h1, h2⟩ := firstElemError_records_none S records lines h
  constructor
  · rw [Marshal_slice, h1, h2]
  · rw [Marshal_slice]; rfl

/-- C11, at the two-record sequence whose records encode to `x||y` and `p||q`: the output is
the two lines with one newline between them. -/
theorem Marshal_sequence_joined_witness :
    Marshal stableSorter (some (.struct recordXY)) = Except.ok "x||y".toList ∧
    Marshal stableSorter (some (.struct recordPQ)) = Except.ok "p||q".toList ∧
    Marshal stableSorter (some (.slice "" [.struct recordXY, .struct recordPQ])) =
      Except.ok "x||y\np||q".toList ∧
    Marshal stableSorter (some (.slice "" [])) = Except.ok [] :=
  ⟨by decide, by decide,
    (Marshal_sequence_joined stableSorter "" [recordXY, recordPQ]
      ["x||y".toList, "p||q".toList]
      (List.Forall₂.cons (by decide) (List.Forall₂.cons (by decide) List.Forall₂.nil))).1,
    (Marshal_sequence_joined stableSorter "" [recordXY, recordPQ]
      ["x||y".toList, "p||q".toList]
      (List.Forall₂.cons (by decide) (List.Forall₂.cons (by decide) List.Forall₂.nil))).2⟩

/-- C12, refuted: the sequence of the one record `newlineFields` encodes successfully and its
output has one newline character, not zero: the string value is copied with its newline. -/
theorem Marshal_newline_in_line :
    Marshal stableSorter (some (.slice "" [.struct newlineFields])) =
      Except.ok ['a', '\n', 'b'] ∧
    List.count '\n' ['a', '\n', 'b'] = 1 ∧
    [Value.struct newlineFields].length - 1 = 0 := by
  decide

/-- C12, amended: for every sequence of records that encodes successfully, the output is empty
when there is no record, and otherwise its number of newline characters is the number of
records less one plus the number of newline characters inside the records' own lines; so it is
the number of records less one when no line contains a newline. -/
theorem Marshal_sequence_newlines (S : Sorter) (typeName : String)
    (records : List (List StructField)) (lines : List Bytes)
    (h : List.Forall₂ (fun r line => Marshal S (some (.struct r)) = Except.ok line)
      records lines) :
    ∃ out : Bytes,
      Marshal S (some (.slice typeName (records.map Value.struct))) = Except.ok out ∧
      (records = [] → out = []) ∧
      (records ≠ [] →
        out.count '\n' = (lines.map (List.count '\n')).sum + (records.length - 1)) ∧
      (records ≠ [] → (∀ line ∈ lines, '\n' ∉ line) →
        out.count '\n' = records.length - 1) := by
  obtain ⟨h1, h2⟩ := firstElemError_records_none S records lines h
  have hlen : records.length = lines.length := h.length_eq
  have hcount : records ≠ [] →
      (joinLines lines).count '\n' =
        (lines.map (List.count '\n')).sum + (records.length - 1) := by
    intro hne
    have hl : lines ≠ [] := by
      intro hl
      rw [hl] at hlen
      exact hne (List.length_eq_zero.mp hlen)
    rw [count_joinLines lines hl, hlen]
  refine ⟨joinLines lines, by rw [Marshal_slice, h1, h2], ?_, hcount, ?_⟩
  · intro hr
    rw [hr] at hlen
    have hl : lines = [] := List.length_eq_zero.mp hlen.symm
    rw [hl]; rfl
  · intro hne hfree
    rw [hcount hne]
    have hzero : (lines.map (List.count '\n')).sum = 0 := by
      apply List.sum_eq_zero
      intro x hx
      obtain ⟨line, hline, rfl⟩ := List.mem_map.mp hx
      exact List.count_eq_zero.mpr (hfree line hline)
    omega

/-- C12 amended, at the sequence of `recordXY`, `newlineFields`, `recordPQ`: two separating
newlines and one inside the second line. -/
theorem Marshal_sequence_newlines_witness :
    ∃ out : Bytes,
      Marshal stableSorter
        (some (.slice "" ([recordXY, newlineFields, recordPQ].map Value.struct))) =
          Except.ok out ∧
      ([recordXY, newlineFields, recordPQ] = [] → out = []) ∧
      ([recordXY, newlineFields, recordPQ] ≠ [] →
        out.count '\n' =
          (["x||y".toList, ['a', '\n', 'b'], "p||q".toList].map (List.count '\n')).sum +
            ([recordXY, newlineFields, recordPQ].length - 1)) ∧
      ([recordXY, newlineFields, recordPQ] ≠ [] →
        (∀ line ∈ ["x||y".toList, ['a', '\n', 'b'], "p||q".toList], '\n' ∉ line) →
        out.count '\n' = [recordXY, newlineFields, recordPQ].length - 1) :=
  Marshal_sequence_newlines stableSorter "" [recordXY, newlineFields, recordPQ]
    ["x||y".toList, ['a', '\n', 'b'], "p||q".toList]
    (List.Forall₂.cons (by decide) (List.Forall₂.cons (by decide)
      (List.Forall₂.cons (by decide) List.Forall₂.nil)))

/-- C13: for every sequence of records in which a record fails to encode while the records
before it encode successfully, `Marshal` returns the error of that first failing record and no
bytes, whatever follows it. -/
theorem Marshal_sequence_fails_fast (S : Sorter) (typeName : String)
    (pre post : List (List StructField)) (r : List StructField) (e : Error)
    (hpre : ∀ u ∈ pre, renders S (.struct u) = true)
    (hr : Marshal S (some (.struct r)) = Except.error e) :
    Marshal S (some (.slice typeName ((pre ++ r :: post).map Value.struct))) =
      Except.error e := by
  rw [Marshal_struct, ← newValueEncoder_struct] at hr
  have h1 : firstElemError S (pre.map Value.struct) = none := by
    apply firstElemError_eq_none
    intro v hv
    obtain ⟨u, hu, rfl⟩ := List.mem_map.mp hv
    exact hpre u hu
  have h2 : firstElemError S (Value.struct r :: post.map Value.struct) = some e := by
    simp [firstElemError, List.findSome?_cons, hr]
  rw [Marshal_slice, List.map_append, List.map_cons, firstElemError_append, h1, h2]
  rfl

/-- C13, at a sequence whose second record has a boolean field: the first record encodes, the
error is that of the second, and the third is not reached. -/
theorem Marshal_sequence_fails_fast_witness :
    (∀ u ∈ [recordXY], renders stableSorter (.struct u) = true) ∧
    Marshal stableSorter (some (.struct boolFields)) =
      Except.error (Error.MarshalInvalidTypeError "bool") ∧
    Marshal stableSorter
      (some (.slice "" (([recordXY] ++ boolFields :: [recordPQ]).map Value.struct))) =
        Except.error (Error.MarshalInvalidTypeError "bool") :=
  ⟨by decide, by decide,
    Marshal_sequence_fails_fast stableSorter "" [recordXY] [recordPQ] boolFields _
      (by decide) (by decide)⟩

/-! ## Floating point fields -/

theorem roundHalfEven_nearest (num den : Nat) (hden : 0 < den) :
    2 * Int.natAbs ((num : Int) - (roundHalfEven num den : Int) * den) ≤ den := by
  have hdm : den * (num / den) + num % den = num := Nat.div_add_mod num den
  have hlt : num % den < den := Nat.mod_lt num hden
  unfold roundHalfEven
  generalize hq : num / den = q at *
  generalize hr : num % den = r at *
  have hP : ((q : Int) + 1) * den = (den : Int) * q + den := by ring
  have hP2 : (q : Int) * den = (den : Int) * q := by ring
  have hnum : (num : Int) = (den : Int) * q + r := by exact_mod_cast hdm.symm
  generalize hprod : (den : Int) * q = P at *
  simp only []
  split
  · rename_i hup
    push_cast
    rw [hP, hnum]
    have hge : den ≤ 2 * r := by omega
    omega
  · rename_i hdown
    rw [hP2, hnum]
    have hle : 2 * r ≤ den := by
      by_contra hc
      exact hdown (Or.inl (by omega))
    omega

theorem FormatFloat_zero_finite (neg : Bool) (mant : Nat) (exp : Int) :
    FormatFloat (.finite neg mant exp) 0 =
      (if neg then ['-'] else []) ++
        Nat.toDigits 10 (if 0 ≤ exp then mant * 2 ^ exp.toNat
          else roundHalfEven mant (2 ^ (-exp).toNat)) := by
  simp [FormatFloat]

theorem not_mem_toDigits (c : Char) (hc : ¬ isDigitByte c) (n : Nat) :
    c ∉ Nat.toDigits 10 n :=
  fun h => hc ((toDigits_isDecimal n).2 c h)

theorem not_mem_FormatFloat_zero (c : Char) (hc : ¬ isDigitByte c) (h1 : c ≠ '-')
    (h2 : c ∉ ['N', 'a', 'N']) (h3 : c ∉ ['+', 'I', 'n', 'f']) (h4 : c ∉ ['-', 'I', 'n', 'f'])
    (f : GoFloat) : c ∉ FormatFloat f 0 := by
  cases f with
  | nan => simpa [FormatFloat] using h2
  | inf neg =>
    cases neg
    · simpa [FormatFloat] using h3
    · simpa [FormatFloat] using h4
  | finite neg mant exp =>
    rw [FormatFloat_zero_finite]
    intro hmem
    rcases List.mem_append.mp hmem with hs | hd
    · cases neg
      · simp at hs
      · simp at hs; exact h1 hs
    · exact not_mem_toDigits c hc _ hd

/-- C14, refuted: the `float64` values 12.5 and 12.25 render as `12`, without their fractional
digits, and the record whose field 12.5 has the declared length 10 encodes to the line `12`;
12.0 renders as `12` as well. -/
theorem float_fraction_dropped :
    newValueEncoder stableSorter (.float64 (.finite false 25 (-1))) = Except.ok "12".toList ∧
    newValueEncoder stableSorter (.float64 (.finite false 49 (-2))) = Except.ok "12".toList ∧
    Marshal stableSorter (some (.struct floatFields)) = Except.ok "12".toList ∧
    newValueEncoder stableSorter (.float64 (.finite false 3 2)) = Except.ok "12".toList := by
  decide

/-- C14, amended: a 64-bit floating-point field value is rendered in fixed-point form with
precision 0: the bytes are `FormatFloat(f, 'f', 0, 64)`, which have no decimal point and no
exponent, and for a finite value they are the sign and the decimal digits of an integer nearest
to the value; so 12.0 renders as `12` and a value with a fractional part loses its fractional
digits. -/
theorem float64_rendered_as_integer (S : Sorter) (f : GoFloat) :
    newValueEncoder S (.float64 f) = Except.ok (FormatFloat f 0) ∧
    '.' ∉ FormatFloat f 0 ∧ 'e' ∉ FormatFloat f 0 ∧ 'E' ∉ FormatFloat f 0 ∧
    (∀ neg mant exp, f = .finite neg mant exp →
      ∃ n : Nat, IsNearestInteger n mant exp ∧
        FormatFloat f 0 = (if neg then ['-'] else []) ++ Nat.toDigits 10 n) := by
  refine ⟨by simp [newValueEncoder, floatEncoder], ?_, ?_, ?_, ?_⟩
  · exact not_mem_FormatFloat_zero '.' (by unfold isDigitByte; decide) (by decide)
      (by decide) (by decide) (by decide) f
  · exact not_mem_FormatFloat_zero 'e' (by unfold isDigitByte; decide) (by decide)
      (by decide) (by decide) (by decide) f
  · exact not_mem_FormatFloat_zero 'E' (by unfold isDigitByte; decide) (by decide)
      (by decide) (by decide) (by decide) f
  · rintro neg mant exp rfl
    rw [FormatFloat_zero_finite]
    by_cases hexp : 0 ≤ exp
    · refine ⟨mant * 2 ^ exp.toNat, ?_, by simp [hexp]⟩
      have hz : (-exp).toNat = 0 := by omega
      unfold IsNearestInteger
      rw [hz]
      push_cast
      simp
    · refine ⟨roundHalfEven mant (2 ^ (-exp).toNat), ?_, by simp [hexp]⟩
      have hz : exp.toNat = 0 := by omega
      unfold IsNearestInteger
      rw [hz]
      have h := roundHalfEven_nearest mant (2 ^ (-exp).toNat) (by positivity)
      push_cast at h
      simpa using h

/-! ## The claims on custom renderers and nested structures -/

theorem firstRenderError_cons_error (S : Sorter) (f : StructField) (post : List StructField)
    (e : Error) (htag : validlyTagged f = true)
    (hv : newValueEncoder S f.value = Except.error e) :
    firstRenderError S (f :: post) = some e := by
  unfold validlyTagged at htag
  unfold firstRenderError
  cases hp : parseTag f.tag with
  | error e => simp [hp] at htag
  | ok pl => simp [List.findSome?_cons, hp, hv]

theorem structEncoder_error_at (S : Sorter) (pre post : List StructField) (f : StructField)
    (e : Error) (htag : validlyTagged f = true)
    (hv : newValueEncoder S f.value = Except.error e) :
    (∃ e1, structEncoder S (pre ++ f :: post) = Except.error e1) ∧
    ((∀ g ∈ pre, validlyTagged g = true → renders S g.value = true) →
      structEncoder S (pre ++ f :: post) = Except.error e) := by
  have hf := firstRenderError_cons_error S f post e htag hv
  have happ := firstRenderError_append S pre (f :: post)
  rw [hf] at happ
  rw [structEncoder_eq]
  constructor
  · cases hpre : firstRenderError S pre with
    | none =>
      rw [hpre] at happ
      simp only [Option.or] at happ
      rw [happ]
      exact ⟨_, rfl⟩
    | some e1 =>
      rw [hpre] at happ
      simp only [Option.or] at happ
      rw [happ]
      exact ⟨_, rfl⟩
  · intro hpre
    rw [(firstRenderError_eq_none S pre).mpr hpre] at happ
    simp only [Option.or] at happ
    rw [happ]

theorem validlyTagged_of_parseTag (f : StructField) (p l : Int)
    (htag : parseTag f.tag = Except.ok (p, l)) : validlyTagged f = true := by
  simp [validlyTagged, htag]

theorem structFields_cons_ok (S : Sorter) (f : StructField) (post : List StructField)
    (p l : Int) (b : Bytes) (htag : parseTag f.tag = Except.ok (p, l))
    (hv : newValueEncoder S f.value = Except.ok b) (acc : List fieldSpec) :
    structFields S (f :: post) acc = structFields S post (acc ++ [⟨p, l, b⟩]) := by
  obtain ⟨tag, value⟩ := f
  simp only [StructField.tag, StructField.value] at htag hv
  simp [structFields, htag, hv]

theorem structFields_cons_error (S : Sorter) (f : StructField) (post : List StructField)
    (p l : Int) (e : Error) (htag : parseTag f.tag = Except.ok (p, l))
    (hv : newValueEncoder S f.value = Except.error e) (acc : List fieldSpec) :
    structFields S (f :: post) acc = Except.error e := by
  obtain ⟨tag, value⟩ := f
  simp only [StructField.tag, StructField.value] at htag hv
  simp [structFields, htag, hv]

/-- C15: for every validly tagged field whose type has a custom renderer, the encoder renders
the field with it whatever the kind of the value is (pointer, struct, string, integer, float).
When it succeeds, its bytes are the value of the spec the field loop collects for the field, a
spec that is emitted in every line the record encodes to. When it returns an error, the field
loop returns exactly that error at that field, so the record encode fails, and it fails with
exactly that error whenever the loop reaches the field, that is, whenever the validly tagged
fields declared before it render without error. -/
theorem Marshal_custom_renderer (S : Sorter) (pre post : List StructField) (f : StructField)
    (p l : Int) (typeName : String) (text : Except Error Bytes) (underlying : Value)
    (htag : parseTag f.tag = Except.ok (p, l))
    (hval : f.value = .textMarshaler typeName text underlying) :
    newValueEncoder S f.value = text ∧
    (∀ b, text = Except.ok b →
      (∀ acc, structFields S (f :: post) acc = structFields S post (acc ++ [⟨p, l, b⟩])) ∧
      ∀ line, Marshal S (some (.struct (pre ++ f :: post))) = Except.ok line →
        ∃ emitted : List fieldSpec,
          line = joinSegments (emitted.map segment) ∧ (⟨p, l, b⟩ : fieldSpec) ∈ emitted) ∧
    (∀ e, text = Except.error e →
      (∀ acc, structFields S (f :: post) acc = Except.error e) ∧
      (∃ e1, Marshal S (some (.struct (pre ++ f :: post))) = Except.error e1) ∧
      ((∀ g ∈ pre, validlyTagged g = true → renders S g.value = true) →
        Marshal S (some (.struct (pre ++ f :: post))) = Except.error e)) := by
  have henc : newValueEncoder S f.value = text := by
    rw [hval]; simp [newValueEncoder, textMarshalerEncoder]
  refine ⟨henc, ?_, ?_⟩
  · intro b hb
    refine ⟨structFields_cons_ok S f post p l b htag (by rw [henc, hb]), ?_⟩
    intro line hok
    rw [Marshal_struct, structEncoder_ok_iff] at hok
    have hmem := mem_declaredSpecs S (pre ++ f :: post) f p l (by simp) htag
    have hr : rendered S f.value = b := by simp [rendered, henc, hb]
    rw [hr] at hmem
    exact ⟨_, hok.2.2, (S.perm _).mem_iff.mpr hmem⟩
  · intro e he
    refine ⟨structFields_cons_error S f post p l e htag (by rw [henc, he]), ?_⟩
    rw [Marshal_struct]
    exact structEncoder_error_at S pre post f e (validlyTagged_of_parseTag f p l htag)
      (by rw [henc, he])

/-- C15, at the custom field of `customFields`, which is of kind string and renders as `custom`,
and at the first field of `twoFailingFields`, whose renderer fails. -/
theorem Marshal_custom_renderer_witness :
    Marshal stableSorter (some (.struct customFields)) = Except.ok "5||custom".toList ∧
    (∃ emitted : List fieldSpec,
      "5||custom".toList = joinSegments (emitted.map segment) ∧
      (⟨2, 9, "custom".toList⟩ : fieldSpec) ∈ emitted) ∧
    Marshal stableSorter (some (.struct twoFailingFields)) =
      Except.error (Error.marshalText "first") :=
  ⟨by decide,
   ((Marshal_custom_renderer stableSorter [] [.mk "1:3".toList (.int 5)]
      (.mk "2:9".toList (.textMarshaler "Code" (.ok "custom".toList) (.string "plain".toList)))
      2 9 "Code" (.ok "custom".toList) (.string "plain".toList) (by decide) rfl).2.1
      "custom".toList rfl).2 "5||custom".toList (by decide),
   ((Marshal_custom_renderer stableSorter []
      [.mk "2:5".toList (.textMarshaler "Code" (.error (.marshalText "second")) (.ptr none))]
      (.mk "1:5".toList (.textMarshaler "Stamp" (.error (.marshalText "first")) (.int 0)))
      1 5 "Stamp" (.error (.marshalText "first")) (.int 0) (by decide) rfl).2.2
      (.marshalText "first") rfl).2.2 (by decide)⟩

/-- C16: for every record with a validly tagged field whose value is itself a structure, when
the record encodes to a line the nested structure encodes, by the record encoder, to one line of
its own (its fields sorted, cut and joined), and that line fills the one slot of the field in
the parent: the parent line has one segment per validly tagged field of the parent, and the
segment of the field is the nested line cut to the field's declared length. -/
theorem Marshal_nested_struct (S : Sorter) (fields : List StructField) (f : StructField)
    (p l : Int) (inner : List StructField) (line : Bytes) (hf : f ∈ fields)
    (htag : parseTag f.tag = Except.ok (p, l)) (hval : f.value = .struct inner)
    (hok : Marshal S (some (.struct fields)) = Except.ok line) :
    ∃ innerLine : Bytes,
      Marshal S (some (.struct inner)) = Except.ok innerLine ∧
      innerLine = joinSegments ((S.sort (declaredSpecs S inner)).map segment) ∧
      ∃ emitted : List fieldSpec,
        line = joinSegments (emitted.map segment) ∧
        (emitted.map segment).length = (fields.filter validlyTagged).length ∧
        emitted.Pairwise posLE ∧
        ∃ i : Nat, emitted[i]? = some (⟨p, l, innerLine⟩ : fieldSpec) ∧
          (emitted.map segment)[i]? = some (cut innerLine l) := by
  rw [Marshal_struct, structEncoder_ok_iff] at hok
  have hren := (firstRenderError_eq_none S fields).mp hok.1 f hf
    (validlyTagged_of_parseTag f p l htag)
  rw [hval] at hren
  obtain ⟨innerLine, hinner⟩ := (renders_struct_iff S inner).mp hren
  have hinner2 := hinner
  rw [Marshal_struct, structEncoder_ok_iff] at hinner2
  have hr : rendered S f.value = innerLine := by
    rw [hval]; exact (rendered_struct_of_ok S inner innerLine hinner).2
  have hmem := mem_declaredSpecs S fields f p l hf htag
  rw [hr] at hmem
  obtain ⟨i, hi⟩ := List.mem_iff_getElem?.mp ((S.perm _).mem_iff.mpr hmem)
  refine ⟨innerLine, hinner, hinner2.2.2, S.sort (declaredSpecs S fields), hok.2.2, ?_,
    sorted_posLE S _, i, hi, ?_⟩
  · rw [List.length_map, (S.perm _).length_eq, ← declaredSpecs_filter,
      declaredSpecs_length_of_all S _ (fun g hg => (List.mem_filter.mp hg).2)]
  · rw [List.getElem?_map, hi]
    rfl

/-- C16, at `nestedFields`: the nested line `ab||wxy` is cut to six bytes and fills the second
of the two slots of the parent line. -/
theorem Marshal_nested_struct_witness :
    Marshal stableSorter (some (.struct nestedFields)) = Except.ok "hea||ab||wx".toList ∧
    ∃ innerLine : Bytes,
      Marshal stableSorter (some (.struct innerFields)) = Except.ok innerLine ∧
      innerLine = joinSegments ((stableSorter.sort (declaredSpecs stableSorter innerFields)).map
        segment) ∧
      ∃ emitted : List fieldSpec,
        "hea||ab||wx".toList = joinSegments (emitted.map segment) ∧
        (emitted.map segment).length = (nestedFields.filter validlyTagged).length ∧
        emitted.Pairwise posLE ∧
        ∃ i : Nat, emitted[i]? = some (⟨2, 6, innerLine⟩ : fieldSpec) ∧
          (emitted.map segment)[i]? = some (cut innerLine 6) :=
  ⟨by decide,
   Marshal_nested_struct stableSorter nestedFields (.mk "2:6".toList (.struct innerFields)) 2 6
     innerFields "hea||ab||wx".toList (List.Mem.head _) (by decide) rfl (by decide)⟩

/-- C17: for every record with zero qualifying fields, be it without fields or with fields that
all lack parseable metadata, the record encoder returns the empty byte sequence, which holds no
delimiter, and no error. -/
theorem Marshal_no_qualifying_fields (S : Sorter) (fields : List StructField)
    (h : ∀ f ∈ fields, validlyTagged f = false) :
    structEncoder S fields = Except.ok [] ∧
    Marshal S (some (.struct fields)) = Except.ok [] ∧
    Marshal S (some (.struct [])) = Except.ok [] := by
  have hnil : structEncoder S [] = Except.ok [] := by
    rw [structEncoder_ok_iff]
    have hs : S.sort (declaredSpecs S []) = [] := List.Perm.eq_nil (S.perm _)
    refine ⟨rfl, ?_, ?_⟩
    · intro s hmem
      cases hmem
    · rw [hs]; rfl
  have hfilter : fields.filter validlyTagged = [] := by
    rw [List.filter_eq_nil_iff]
    intro f hf
    simp [h f hf]
  have hs : structEncoder S fields = Except.ok [] := by
    rw [← structEncoder_filter, hfilter, hnil]
  exact ⟨hs, by rw [Marshal_struct, hs], by rw [Marshal_struct, hnil]⟩

/-- C17, at a record with an untagged boolean field and two fields with malformed tags. -/
theorem Marshal_no_qualifying_fields_witness :
    (∀ f ∈ untaggedFields, validlyTagged f = false) ∧
    structEncoder stableSorter untaggedFields = Except.ok [] ∧
    Marshal stableSorter (some (.struct untaggedFields)) = Except.ok [] ∧
    Marshal stableSorter (some (.struct [])) = Except.ok [] :=
  ⟨by decide, Marshal_no_qualifying_fields stableSorter untaggedFields (by decide)⟩

/-! ## The claims on `encodeSpecs` and on fields without metadata -/

theorem length_joinSegments (segs : List Bytes) (hne : segs ≠ []) :
    (joinSegments segs).length = (segs.map List.length).sum + 2 * (segs.length - 1) := by
  induction segs with
  | nil => exact absurd rfl hne
  | cons a rest ih =>
    cases rest with
    | nil => simp [joinSegments_singleton]
    | cons b l =>
      have h := ih (by simp)
      rw [joinSegments_cons_cons, List.length_append, List.length_append, h]
      simp only [delimeter, List.map_cons, List.sum_cons, List.length_cons, List.length_nil]
      omega

theorem segment_length (s : fieldSpec) (h : 0 ≤ s.length) :
    ((segment s).length : Int) = min (s.value.length : Int) s.length := by
  unfold segment cut
  rw [List.length_take]
  omega

theorem sum_segment_lengths (l : List fieldSpec) (h : ∀ s ∈ l, 0 ≤ s.length) :
    ((((l.map segment).map List.length).sum : Nat) : Int) =
        (l.map (fun s => min (s.value.length : Int) s.length)).sum ∧
      (l.map (fun s => min (s.value.length : Int) s.length)).sum ≤
        (l.map (·.length)).sum := by
  induction l with
  | nil => simp
  | cons s rest ih =>
    obtain ⟨h1, h2⟩ := ih (fun t ht => h t (List.mem_cons_of_mem _ ht))
    have hs := segment_length s (h s (List.mem_cons_self _ _))
    simp only [List.map_cons, List.sum_cons]
    constructor
    · rw [Nat.cast_add, hs, h1]
    · have := min_le_right (s.value.length : Int) s.length
      omega

/-- C18: `encodeSpecs` returns an error if and only if one of the given specs has a negative
length; when all lengths are at least 0 every slice expression of the truncation step is in
bounds and a line is returned, and when a spec has a negative length, whatever its value, the
result is an error. -/
theorem encodeSpecs_error_iff (S : Sorter) (specs : List fieldSpec) :
    ((∃ e, encodeSpecs S specs = Except.error e) ↔ ∃ s ∈ specs, s.length < 0) ∧
    ((∀ s ∈ specs, 0 ≤ s.length) →
      (∃ line, encodeSpecs S specs = Except.ok line) ∧
      ∀ s ∈ specs, (s.value.length : Int) > s.length →
        sliceTo s.value s.length = Except.ok (s.value.take s.length.toNat)) ∧
    ((∃ s ∈ specs, s.length < 0) → ∀ line, encodeSpecs S specs ≠ Except.ok line) := by
  refine ⟨⟨?_, encodeSpecs_neg S specs⟩, ?_, ?_⟩
  · rintro ⟨e, he⟩
    by_contra hno
    have hall : ∀ s ∈ specs, 0 ≤ s.length := by
      intro s hs
      by_contra hneg
      exact hno ⟨s, hs, by omega⟩
    rw [encodeSpecs_ok S specs hall] at he
    cases he
  · intro hall
    refine ⟨⟨_, encodeSpecs_ok S specs hall⟩, ?_⟩
    intro s hs hgt
    have h0 := hall s hs
    unfold sliceTo
    have hnot : ¬ (s.length < 0 ∨ (s.value.length : Int) < s.length) := by omega
    rw [if_neg hnot]
  · intro hneg line hline
    obtain ⟨e, he⟩ := encodeSpecs_neg S specs hneg
    rw [he] at hline
    cases hline

/-- C19: for every non-empty list of `n` specs with non-negative lengths, the line `encodeSpecs`
returns has exactly the sum over the specs of `min(len(value), length)` bytes plus `2*(n-1)`
for the delimiters, which is at most the sum of the declared lengths plus `2*(n-1)`. -/
theorem encodeSpecs_line_length (S : Sorter) (specs : List fieldSpec) (hne : specs ≠ [])
    (hlen : ∀ s ∈ specs, 0 ≤ s.length) :
    ∃ line : Bytes,
      encodeSpecs S specs = Except.ok line ∧
      (line.length : Int) =
        (specs.map (fun s => min (s.value.length : Int) s.length)).sum +
          2 * ((specs.length : Int) - 1) ∧
      (line.length : Int) ≤
        (specs.map (·.length)).sum + 2 * ((specs.length : Int) - 1) := by
  have hperm := S.perm specs
  have hsorted : ∀ s ∈ S.sort specs, 0 ≤ s.length :=
    fun s hs => hlen s (hperm.mem_iff.mp hs)
  have hne2 : (S.sort specs).map segment ≠ [] := by
    intro h
    have h0 : (S.sort specs).length = 0 := by
      have := congrArg List.length h
      simpa using this
    rw [hperm.length_eq] at h0
    exact hne (List.length_eq_zero.mp h0)
  obtain ⟨h1, _⟩ := sum_segment_lengths (S.sort specs) hsorted
  obtain ⟨_, h2⟩ := sum_segment_lengths specs hlen
  have hsum : ((S.sort specs).map (fun s => min (s.value.length : Int) s.length)).sum =
      (specs.map (fun s => min (s.value.length : Int) s.length)).sum :=
    (hperm.map _).sum_eq
  have hpos : 1 ≤ specs.length := List.length_pos.mpr hne
  have hlength : ((joinSegments ((S.sort specs).map segment)).length : Int) =
      (specs.map (fun s => min (s.value.length : Int) s.length)).sum +
        2 * ((specs.length : Int) - 1) := by
    have hj := length_joinSegments _ hne2
    rw [List.length_map, hperm.length_eq] at hj
    omega
  refine ⟨_, encodeSpecs_ok S specs hlen, hlength, ?_⟩
  rw [hlength]
  omega

/-- C19, at `mixedSpecs`: the line `xy||||ab` has 2 + 0 + 2 bytes of values and two delimiters,
8 bytes, at most 8 + 4 + 2 + 4. -/
theorem encodeSpecs_line_length_witness :
    mixedSpecs ≠ [] ∧ (∀ s ∈ mixedSpecs, 0 ≤ s.length) ∧
    encodeSpecs stableSorter mixedSpecs = Except.ok "xy||||ab".toList ∧
    ∃ line : Bytes,
      encodeSpecs stableSorter mixedSpecs = Except.ok line ∧
      (line.length : Int) =
        (mixedSpecs.map (fun s => min (s.value.length : Int) s.length)).sum +
          2 * ((mixedSpecs.length : Int) - 1) ∧
      (line.length : Int) ≤
        (mixedSpecs.map (·.length)).sum + 2 * ((mixedSpecs.length : Int) - 1) :=
  ⟨by decide, by decide, by decide,
    encodeSpecs_line_length stableSorter mixedSpecs (by decide) (by decide)⟩

theorem validlyTagged_mk (tag : Bytes) (v w : Value) :
    validlyTagged (.mk tag v) = validlyTagged (.mk tag w) := rfl

theorem structEncoder_remove_untagged (S : Sorter) (pre post : List StructField)
    (f : StructField) (h : validlyTagged f = false) :
    structEncoder S (pre ++ f :: post) = structEncoder S (pre ++ post) := by
  rw [← structEncoder_filter S (pre ++ f :: post), ← structEncoder_filter S (pre ++ post)]
  simp [List.filter_append, List.filter_cons, h]

/-- C20: the tag of a field is parsed before its value is rendered, so for every record a field
whose metadata is absent or unparseable is never rendered: the result of the record encode,
bytes or error, is the same without the field, it is the same whatever the value of the field is
(a value that fails to render included), and it is the same as for the record without all such
fields. -/
theorem Marshal_untagged_never_rendered (S : Sorter) (pre post : List StructField)
    (f : StructField) (h : validlyTagged f = false) :
    Marshal S (some (.struct (pre ++ f :: post))) = Marshal S (some (.struct (pre ++ post))) ∧
    (∀ v : Value, Marshal S (some (.struct (pre ++ .mk f.tag v :: post))) =
      Marshal S (some (.struct (pre ++ f :: post)))) ∧
    Marshal S (some (.struct ((pre ++ f :: post).filter validlyTagged))) =
      Marshal S (some (.struct (pre ++ f :: post))) := by
  refine ⟨?_, ?_, ?_⟩
  · rw [Marshal_struct, Marshal_struct, structEncoder_remove_untagged S pre post f h]
  · intro v
    have hv : validlyTagged (.mk f.tag v) = false := by
      obtain ⟨tag, value⟩ := f
      exact (validlyTagged_mk tag v value).trans h
    rw [Marshal_struct, Marshal_struct, structEncoder_remove_untagged S pre post f h,
      structEncoder_remove_untagged S pre post _ hv]
  · rw [Marshal_struct, Marshal_struct, structEncoder_filter]

/-- C20, at `hiddenBoolFields`, whose untagged field is a boolean: the record encodes to
`abc||xyz`, as it does without the field and with a failing custom renderer in its place. -/
theorem Marshal_untagged_never_rendered_witness :
    validlyTagged (.mk [] (.other "bool")) = false ∧
    Marshal stableSorter (some (.struct hiddenBoolFields)) = Except.ok "abc||xyz".toList ∧
    Marshal stableSorter (some (.struct
      ([.mk "1:3".toList (.string "abc".toList)] ++ .mk [] (.other "bool") ::
        [.mk "2:3".toList (.string "xyz".toList)]))) =
      Marshal stableSorter (some (.struct
        ([.mk "1:3".toList (.string "abc".toList)] ++
          [.mk "2:3".toList (.string "xyz".toList)]))) ∧
    Marshal stableSorter (some (.struct
      ([.mk "1:3".toList (.string "abc".toList)] ++
        .mk [] (.textMarshaler "Stamp" (.error (.marshalText "bad stamp")) (.int 0)) ::
        [.mk "2:3".toList (.string "xyz".toList)]))) =
      Marshal stableSorter (some (.struct hiddenBoolFields)) :=
  ⟨by decide, by decide,
   (Marshal_untagged_never_rendered stableSorter [.mk "1:3".toList (.string "abc".toList)]
      [.mk "2:3".toList (.string "xyz".toList)] (.mk [] (.other "bool")) (by decide)).1,
   (Marshal_untagged_never_rendered stableSorter [.mk "1:3".toList (.string "abc".toList)]
      [.mk "2:3".toList (.string "xyz".toList)] (.mk [] (.other "bool")) (by decide)).2.1
      (.textMarshaler "Stamp" (.error (.marshalText "bad stamp")) (.int 0))⟩

end Fixcsv
